import Mathlib

/-!
sibel: diacritic restoration in front of a spelling oracle.

A shallow embedding of `substitutions.cc`, `simplification.cc` and the
`orthographic_forms` method of `sibelmodule.cc`, followed by theorems about
the candidate generator, the guard predicates, the canonicaliser and the
orchestration policy.

Conventions of the embedding:
* a `std::string` is the list of its bytes (naturals below 256);
* an `icu::UnicodeString` is the list of its UTF-16 code units;
* a `std::unordered_map` built from an initialiser list is the list of its
  entries, looked up from the front (a repeated key is ignored by the
  constructor, so the first entry wins);
* a C++ exception or an unbounded recursion is an `Except.error`;
* what the code takes from its environment is a parameter: the data of ICU
  (`Icu`) and the character classification of the locale (`Locale`).
-/

namespace Sibel

/-! ## Strings and maps -/

/-- A `std::string`, as the list of its bytes. -/
abbrev Str := List Nat

/-- A `std::unordered_map<std::string, std::vector<std::string>>`, as the list
of its entries in initialiser order. -/
abbrev StrMap := List (Str × List Str)

/-- The lookup `map.find(key)` followed by `map.at(key)`: the value of the
first entry whose key is `key`, if any. -/
def StrMap.find : StrMap → Str → Option (List Str)
  | [], _ => none
  | (k, v) :: rest, key => if k = key then some v else StrMap.find rest key

/-- The ways a call into the generator can fail to return. -/
inductive Fault where
  /-- `std::out_of_range`, thrown by `std::string::substr` when `pos > size()`. -/
  | out_of_range
  /-- The recursion does not come back (only possible with `len_of_key = 0`). -/
  | no_return
  deriving DecidableEq, Repr

/-- The call `input.substr(pos, n)`: it throws when `pos > input.size()` and
otherwise returns at most `n` bytes starting at `pos`. -/
def substr (input : Str) (pos n : Nat) : Except Fault Str :=
  if input.length < pos then .error .out_of_range
  else .ok ((input.drop pos).take n)

/-- The class `substitution_table` of `sibel.h`: its two private maps. -/
structure substitution_table where
  /-- Letter by letter substitution. -/
  table_letters : StrMap
  /-- Two-letter substitution. -/
  table_ligatures : StrMap

/-! ## Guard predicate of `substitutions.cc` -/

/-- The character classification that `std::isprint` and `std::isspace` consult:
the `LC_CTYPE` category of the locale of the process. The code never sets it;
the interpreter that loads the module takes it from the environment. A byte is
passed as an `unsigned char`. -/
structure Locale where
  /-- The function `std::isprint` on an `unsigned char`. -/
  isprint : Nat → Bool
  /-- The function `std::isspace` on an `unsigned char`. -/
  isspace : Nat → Bool

/-- The "C" locale: the printable characters are the bytes `0x20..0x7E`, the
white space is the space, `\t`, `\n`, `\v`, `\f` and `\r`. A UTF-8 locale
classifies single bytes in the same way. -/
def c_locale : Locale where
  isprint c := decide (0x20 ≤ c ∧ c ≤ 0x7E)
  isspace c := decide (c = 0x20 ∨ (0x09 ≤ c ∧ c ≤ 0x0D))

/-- A single-byte ISO-8859-1 locale, as far as the examples use it: the bytes
`0xA0..0xFF` are printable characters as well, the white space is that of the
"C" locale. -/
def latin1_locale : Locale where
  isprint c := decide ((0x20 ≤ c ∧ c ≤ 0x7E) ∨ (0xA0 ≤ c ∧ c ≤ 0xFF))
  isspace c := decide (c = 0x20 ∨ (0x09 ≤ c ∧ c ≤ 0x0D))

/-- The static method `substitution_table::is_substitutable`:
`std::all_of(isprint) && std::none_of(isspace)`, in the locale of the
process. -/
def is_substitutable (locale : Locale) (s : Str) : Bool :=
  s.all locale.isprint && !(s.any locale.isspace)

/-! ## Candidate generator of `substitutions.cc` -/

/-- The body of `substitution_table::generate_substitutions`, with the depth
of the recursion bounded by `fuel`. The vector `result` passed by reference is
threaded through: the function returns the vector as it is after the call. -/
def generate_substitutions_fuel (map : StrMap) (input : Str) (len_of_key : Nat) :
    Nat → List Str → Nat → Str → Except Fault (List Str)
  | 0, _, _, _ => .error .no_return
  | fuel + 1, result, index, current =>
    if index = input.length then
      .ok (result ++ [current])
    else
      match substr input index len_of_key with
      | .error e => .error e
      | .ok current_chars =>
        match generate_substitutions_fuel map input len_of_key fuel result (index + 1)
            (current ++ [input.getD index 0]) with
        | .error e => .error e
        | .ok result1 =>
          match map.find current_chars with
          | none => .ok result1
          | some variants =>
            variants.foldlM
              (fun acc s =>
                generate_substitutions_fuel map input len_of_key fuel acc
                  (index + len_of_key) (current ++ s))
              result1

/-- The static method `substitution_table::generate_substitutions`. Every
recursive call moves `index` forward when `len_of_key ≥ 1`, so a depth of
`input.size() - index + 1` is never exceeded; with `len_of_key = 0` and the
empty string as a key the C++ recursion does not come back, which is the
fault `no_return`. -/
def generate_substitutions (map : StrMap) (input : Str) (result : List Str)
    (index : Nat) (current : Str) (len_of_key : Nat) : Except Fault (List Str) :=
  generate_substitutions_fuel map input len_of_key (input.length + 1 - index)
    result index current

/-- The method `substitution_table::substitute`. -/
def substitute (t : substitution_table) (original : Str) : Except Fault (List Str) :=
  match (if t.table_ligatures.isEmpty then .ok [original]
         else generate_substitutions t.table_ligatures original [] 0 [] 2) with
  | .error e => .error e
  | .ok ligs =>
    if t.table_letters.isEmpty then .ok ligs
    else
      ligs.foldlM (fun result s => generate_substitutions t.table_letters s result 0 [] 1) []

/-! ## The ICU interface used by `simplification.cc`

ICU is an external library. Its Unicode data (the NFKD normaliser, the
membership test of a `UnicodeSet`, the UTF-8 conversions) is taken as a
parameter; the operations of `icu::UnicodeString` that `simplify` calls on
UTF-16 code units are written out after the ICU headers (`utf16.h`,
`unistr.h`). -/

/-- An `icu::UnicodeString`, as the list of its UTF-16 code units. -/
abbrev UnicodeString := List Nat

/-- The Unicode data and conversions of ICU that `simplify` relies on. -/
structure Icu where
  /-- The conversion `icu::UnicodeString::fromUTF8`. -/
  fromUTF8 : Str → UnicodeString
  /-- The call `normaliser->normalize` of the NFKD instance. -/
  normalize : UnicodeString → UnicodeString
  /-- The test `BANNED_SET.contains(c)` for the set `[[:M:][:P:][:Z:]]`. -/
  banned_set_contains : Nat → Bool
  /-- The conversion `icu::UnicodeString::toUTF8String`. -/
  toUTF8String : UnicodeString → Str

/-- The macro `U16_IS_LEAD`. -/
def U16_IS_LEAD (c : Nat) : Bool := decide (0xD800 ≤ c ∧ c ≤ 0xDBFF)

/-- The macro `U16_IS_TRAIL`. -/
def U16_IS_TRAIL (c : Nat) : Bool := decide (0xDC00 ≤ c ∧ c ≤ 0xDFFF)

/-- The macro `U16_GET_SUPPLEMENTARY`. -/
def U16_GET_SUPPLEMENTARY (lead trail : Nat) : Nat :=
  (lead - 0xD800) * 0x400 + (trail - 0xDC00) + 0x10000

/-- The method `UnicodeString::char32At(offset)`, which is `U16_GET`: the code
point that contains the code unit at `offset`, whether `offset` points to its
lead or to its trail surrogate; `0xFFFF` when `offset` is out of range. -/
def char32At (s : UnicodeString) (offset : Nat) : Nat :=
  if offset < s.length then
    let c := s.getD offset 0
    if U16_IS_LEAD c then
      if offset + 1 ≠ s.length ∧ U16_IS_TRAIL (s.getD (offset + 1) 0) then
        U16_GET_SUPPLEMENTARY c (s.getD (offset + 1) 0)
      else c
    else if U16_IS_TRAIL c then
      if 0 < offset ∧ U16_IS_LEAD (s.getD (offset - 1) 0) then
        U16_GET_SUPPLEMENTARY (s.getD (offset - 1) 0) c
      else c
    else c
  else 0xFFFF

/-- The method `UnicodeString::append(UChar32 c)`, which is `U16_APPEND`: one
code unit for `c ≤ 0xFFFF`, a surrogate pair up to `0x10FFFF`, nothing above. -/
def append (s : UnicodeString) (c : Nat) : UnicodeString :=
  if c ≤ 0xFFFF then s ++ [c]
  else if c ≤ 0x10FFFF then s ++ [(c - 0x10000) / 0x400 + 0xD800, (c - 0x10000) % 0x400 + 0xDC00]
  else s

/-- The scan of `findAndReplace`: `skip` code units of a match just replaced
are still to be passed over. -/
def findAndReplace_scan (oldText newText : UnicodeString) :
    Nat → UnicodeString → UnicodeString
  | _, [] => []
  | skip + 1, _ :: rest => findAndReplace_scan oldText newText skip rest
  | 0, c :: rest =>
    if oldText.isPrefixOf (c :: rest) then
      newText ++ findAndReplace_scan oldText newText (oldText.length - 1) rest
    else c :: findAndReplace_scan oldText newText 0 rest

/-- The method `UnicodeString::findAndReplace(oldText, newText)`: every
occurrence of `oldText`, found from left to right without overlap, is replaced
by `newText`; an empty `oldText` leaves the string as it is. -/
def findAndReplace (s oldText newText : UnicodeString) : UnicodeString :=
  if oldText = [] then s else findAndReplace_scan oldText newText 0 s

/-! ## `simplification.cc` -/

/-- The six ligature constants `LIGATURE_*`, each built from one code point,
and the six digraphs `PLAIN_*`. -/
def LIGATURE_SS : UnicodeString := [0x1E9E]
def LIGATURE_ss : UnicodeString := [0x00DF]
def LIGATURE_AE : UnicodeString := [0x00C6]
def LIGATURE_ae : UnicodeString := [0x00E6]
def LIGATURE_OE : UnicodeString := [0x0152]
def LIGATURE_oe : UnicodeString := [0x0153]
def PLAIN_SS : UnicodeString := [0x53, 0x53]
def PLAIN_ss : UnicodeString := [0x73, 0x73]
def PLAIN_AE : UnicodeString := [0x41, 0x45]
def PLAIN_ae : UnicodeString := [0x61, 0x65]
def PLAIN_OE : UnicodeString := [0x4F, 0x45]
def PLAIN_oe : UnicodeString := [0x6F, 0x65]

/-- The filter loop of `simplify`:
`for (i = 0; i < normalised.length(); ++i)` reads `normalised.char32At(i)`
and appends it to `result` unless `BANNED_SET` contains it. -/
def simplify_filter (icu : Icu) (normalised : UnicodeString) : UnicodeString :=
  (List.range normalised.length).foldl
    (fun result i =>
      let c := char32At normalised i
      if !icu.banned_set_contains c then append result c else result)
    []

/-- The six calls of `findAndReplace` at the end of `simplify`. -/
def simplify_fold (result : UnicodeString) : UnicodeString :=
  let r1 := findAndReplace result LIGATURE_SS PLAIN_SS
  let r2 := findAndReplace r1 LIGATURE_ss PLAIN_ss
  let r3 := findAndReplace r2 LIGATURE_AE PLAIN_AE
  let r4 := findAndReplace r3 LIGATURE_ae PLAIN_ae
  let r5 := findAndReplace r4 LIGATURE_OE PLAIN_OE
  findAndReplace r5 LIGATURE_oe PLAIN_oe

/-- The function `simplify` of `simplification.cc`. -/
def simplify (icu : Icu) (s : Str) : Str :=
  let us := icu.fromUTF8 s
  let normalised := icu.normalize us
  let result := simplify_filter icu normalised
  icu.toUTF8String (simplify_fold result)

/-- The call `s.find(c) != std::string::npos`, searching from the front:
the position of the first occurrence of `c` in `s`, if there is one. -/
def string_find : Str → Str → Option Nat
  | [], c => if c = [] then some 0 else none
  | b :: rest, c =>
    if c.isPrefixOf (b :: rest) then some 0
    else (string_find rest c).map (· + 1)

/-- The array `BANNED_CHARS`: `" "`, `"-"`, the apostrophe and `"\u2019"` in
UTF-8. -/
def BANNED_CHARS : List Str := [[0x20], [0x2D], [0x27], [0xE2, 0x80, 0x99]]

/-- The function `is_without_banned_chars` of `simplification.cc`: false as
soon as one of `BANNED_CHARS` is found in `s`. -/
def is_without_banned_chars (s : Str) : Bool :=
  BANNED_CHARS.all (fun c => (string_find s c).isNone)

/-! ## `Speller.orthographic_forms` of `sibelmodule.cc` -/

/-- The two capabilities of the `Hunspell` object that `orthographic_forms`
calls. -/
structure Hunspell where
  /-- The method `Hunspell::spell`. -/
  spell : Str → Bool
  /-- The method `Hunspell::suggest`. -/
  suggest : Str → List Str

/-- The struct `Speller`: `sub_table` is a null pointer when the language has
no entry in `SUBSTITUTION_TABLES`. -/
structure Speller where
  hunspell : Hunspell
  sub_table : Option substitution_table

/-- The worker threads of one call, all running `body` on their own argument,
until all are joined. The only shared state is `forms`, which a worker touches
inside its `std::lock_guard` only, so an execution is an order in which the
workers pass through their critical section. The schedule `sched` gives that
order: its head, modulo the number of workers still to run, selects the next
one. Every order arises from some schedule. -/
def join_threads (body : Str → List Str → List Str) :
    Nat → List Nat → List Str → List Str → List Str
  | 0, _, _, forms => forms
  | n + 1, sched, args, forms =>
    match args with
    | [] => forms
    | a :: rest =>
      let k := sched.headD 0 % (rest.length + 1)
      join_threads body n sched.tail ((a :: rest).eraseIdx k)
        (body ((a :: rest).getD k a) forms)

/-- The threads created in a `for` loop over `args` and then joined. -/
def run_threads (body : Str → List Str → List Str) (sched : List Nat)
    (args : List Str) (forms : List Str) : List Str :=
  join_threads body args.length sched args forms

/-- The method `Speller_orthographic_forms`, from the parsed `word` to the
vector `forms` that is copied into the returned list. The constant
`substitution_table::SUBSTITUTION_MAX_LENGTH` is not declared in `sibel.h`;
it is the parameter `SUBSTITUTION_MAX_LENGTH`. The guard is evaluated in the
locale of the process. -/
def Speller_orthographic_forms (locale : Locale) (icu : Icu) (SUBSTITUTION_MAX_LENGTH : Nat)
    (self : Speller) (sched : List Nat) (word : Str) : Except Fault (List Str) :=
  let fallback : List Str :=
    let word_simplified := simplify icu word
    run_threads
      (fun s forms =>
        if is_without_banned_chars s && simplify icu s == word_simplified then forms ++ [s]
        else forms)
      sched (self.hunspell.suggest word) []
  if is_substitutable locale word then
    match self.sub_table with
    | some sub_table =>
      if word.length ≤ SUBSTITUTION_MAX_LENGTH then
        match substitute sub_table word with
        | .error e => .error e
        | .ok possible_forms =>
          .ok (run_threads
            (fun form forms => if self.hunspell.spell form then forms ++ [form] else forms)
            sched possible_forms [])
      else .ok fallback
    | none => .ok fallback
  else
    .ok (if self.hunspell.spell word then [word] else [])

/-! ## Reference definitions for the generator -/

/-- What a position holding the byte `c` may become under the map `m`: the
byte itself, or one of the variants listed for it. -/
def choices (m : StrMap) (c : Nat) : List Str :=
  [c] :: (m.find [c]).getD []

/-- The strings obtained by choosing independently, at each position of the
word, one of the `choices` of that position. -/
def cartesian_product (m : StrMap) : Str → List Str
  | [] => [[]]
  | c :: w => (choices m c).flatMap (fun x => (cartesian_product m w).map (x ++ ·))

/-- The ligature phase on its own: the generator run over the word with the
ligature map and keys of length 2. -/
def ligature_phase (t : substitution_table) (w : Str) : Except Fault (List Str) :=
  generate_substitutions t.table_ligatures w [] 0 [] 2

/-- The letter phase on its own: the generator run over one string with the
letter map and keys of length 1. -/
def letter_phase (t : substitution_table) (s : Str) : Except Fault (List Str) :=
  generate_substitutions t.table_letters s [] 0 [] 1

/-- The concatenation, in order, of a list of results; the first fault wins. -/
def concat_results : List (Except Fault (List Str)) → Except Fault (List Str)
  | [] => .ok []
  | .error e :: _ => .error e
  | .ok l :: rest =>
    match concat_results rest with
    | .error e => .error e
    | .ok ls => .ok (l ++ ls)

/-! ## Reference definition of the canonical key -/

/-- The code points of a UTF-16 string: a lead surrogate followed by a trail
surrogate is one supplementary code point, any other code unit is itself. -/
def code_points : UnicodeString → List Nat
  | [] => []
  | [u] => [u]
  | u :: v :: rest =>
    if U16_IS_LEAD u && U16_IS_TRAIL v then U16_GET_SUPPLEMENTARY u v :: code_points rest
    else u :: code_points (v :: rest)

/-- A code unit that is a code point of its own: not a surrogate. -/
def is_bmp_scalar (u : Nat) : Prop := u < 0xD800 ∨ (0xE000 ≤ u ∧ u ≤ 0xFFFF)

/-- The digraph that replaces one of the six ligature code points; any other
code point stands for itself. -/
def fold_ligature (c : Nat) : List Nat :=
  if c = 0x1E9E then [0x53, 0x53]
  else if c = 0x00DF then [0x73, 0x73]
  else if c = 0x00C6 then [0x41, 0x45]
  else if c = 0x00E6 then [0x61, 0x65]
  else if c = 0x0152 then [0x4F, 0x45]
  else if c = 0x0153 then [0x6F, 0x65]
  else [c]

/-- The three steps by which the canonical key is described: decompose (NFKD),
drop the code points of the banned categories keeping every other code point
once and in order, replace the six ligatures by their digraphs. -/
def simplify_reference (icu : Icu) (s : Str) : Str :=
  let decomposed := code_points (icu.normalize (icu.fromUTF8 s))
  let kept := decomposed.filter (fun c => !icu.banned_set_contains c)
  let folded := kept.flatMap fold_ligature
  icu.toUTF8String (folded.foldl append [])

/-! ## A small instance of the ICU interface

It agrees with Unicode on well-formed UTF-8 and on the code points the
examples use; it shows that what the theorems assume of ICU can be met. -/

/-- A decoder of well-formed UTF-8 into code points. -/
def utf8_decode : Str → List Nat
  | [] => []
  | b0 :: rest =>
    if b0 < 0x80 then b0 :: utf8_decode rest
    else
      match rest with
      | [] => [0xFFFD]
      | b1 :: rest1 =>
        if b0 < 0xE0 then ((b0 % 0x20) * 0x40 + b1 % 0x40) :: utf8_decode rest1
        else
          match rest1 with
          | [] => [0xFFFD]
          | b2 :: rest2 =>
            if b0 < 0xF0 then
              ((b0 % 0x10) * 0x1000 + (b1 % 0x40) * 0x40 + b2 % 0x40) :: utf8_decode rest2
            else
              match rest2 with
              | [] => [0xFFFD]
              | b3 :: rest3 =>
                ((b0 % 0x08) * 0x40000 + (b1 % 0x40) * 0x1000 + (b2 % 0x40) * 0x40 + b3 % 0x40)
                  :: utf8_decode rest3

/-- The UTF-8 bytes of one code point. -/
def utf8_encode (c : Nat) : Str :=
  if c < 0x80 then [c]
  else if c < 0x800 then [0xC0 + c / 0x40, 0x80 + c % 0x40]
  else if c < 0x10000 then [0xE0 + c / 0x1000, 0x80 + (c / 0x40) % 0x40, 0x80 + c % 0x40]
  else [0xF0 + c / 0x40000, 0x80 + (c / 0x1000) % 0x40, 0x80 + (c / 0x40) % 0x40,
    0x80 + c % 0x40]

/-- The compatibility decomposition of a few precomposed Latin letters
(é, è, ï, ü, á, à, ó); every other code unit is left as it is. -/
def sample_decompose (u : Nat) : UnicodeString :=
  if u = 0xE9 then [0x65, 0x301]
  else if u = 0xE8 then [0x65, 0x300]
  else if u = 0xEF then [0x69, 0x308]
  else if u = 0xFC then [0x75, 0x308]
  else if u = 0xE1 then [0x61, 0x301]
  else if u = 0xE0 then [0x61, 0x300]
  else if u = 0xF3 then [0x6F, 0x301]
  else [u]

/-- Membership in `[[:M:][:P:][:Z:]]` for Basic Latin (the space and the
punctuation marks), the combining diacritical marks U+0300..U+036F and the
dashes and quotation marks U+2010..U+2027; false elsewhere. -/
def sample_banned (c : Nat) : Bool :=
  decide (c ∈ [0x20, 0x21, 0x22, 0x23, 0x25, 0x26, 0x27, 0x28, 0x29, 0x2A, 0x2C, 0x2D, 0x2E,
      0x2F, 0x3A, 0x3B, 0x3F, 0x40, 0x5B, 0x5C, 0x5D, 0x5F, 0x7B, 0x7D]
    ∨ (0x300 ≤ c ∧ c ≤ 0x36F) ∨ (0x2010 ≤ c ∧ c ≤ 0x2027))

/-- The sample instance of the ICU interface. -/
def icu_sample : Icu where
  fromUTF8 s := (utf8_decode s).foldl append []
  normalize us := us.flatMap sample_decompose
  banned_set_contains := sample_banned
  toUTF8String us := (code_points us).flatMap utf8_encode

/-! ## The catalog `SUBSTITUTION_TABLES` of `substitutions.cc`

Every string is given by its bytes; a `\u` escape of the source is the UTF-8
encoding of that code point. The comment of an entry repeats the source. -/

/-- The table of the language `af`. -/
def table_af : substitution_table where
  table_letters := [
    ([0x41], [[0xC3, 0x81], [0xC3, 0x84]]), -- A: U+00C1 U+00C4
    ([0x61], [[0xC3, 0xA1], [0xC3, 0xA4]]), -- a: U+00E1 U+00E4
    ([0x45], [[0xC3, 0x88], [0xC3, 0x89], [0xC3, 0x8A], [0xC3, 0x8B]]), -- E: U+00C8 U+00C9 U+00CA U+00CB
    ([0x65], [[0xC3, 0xA8], [0xC3, 0xA9], [0xC3, 0xAA], [0xC3, 0xAB]]), -- e: U+00E8 U+00E9 U+00EA U+00EB
    ([0x49], [[0xC3, 0x8D], [0xC3, 0x8E], [0xC3, 0x8F]]), -- I: U+00CD U+00CE U+00CF
    ([0x69], [[0xC3, 0xAD], [0xC3, 0xAE], [0xC3, 0xAF]]), -- i: U+00ED U+00EE U+00EF
    ([0x4F], [[0xC3, 0x93], [0xC3, 0x94], [0xC3, 0x96]]), -- O: U+00D3 U+00D4 U+00D6
    ([0x6F], [[0xC3, 0xB3], [0xC3, 0xB4], [0xC3, 0xB6]]), -- o: U+00F3 U+00F4 U+00F6
    ([0x55], [[0xC3, 0x9A], [0xC3, 0x9B], [0xC3, 0x9C]]), -- U: U+00DA U+00DB U+00DC
    ([0x75], [[0xC3, 0xBA], [0xC3, 0xBB], [0xC3, 0xBC]]), -- u: U+00FA U+00FB U+00FC
    ([0x59], [[0xC3, 0x9D]]), -- Y: U+00DD
    ([0x79], [[0xC3, 0xBD]]) -- y: U+00FD
  ]
  table_ligatures := []

/-- The table of the language `de`. -/
def table_de : substitution_table where
  table_letters := [
    ([0x41], [[0xC3, 0x84]]), -- A: U+00C4
    ([0x61], [[0xC3, 0xA4]]), -- a: U+00E4
    ([0x4F], [[0xC3, 0x96]]), -- O: U+00D6
    ([0x6F], [[0xC3, 0xB6]]), -- o: U+00F6
    ([0x55], [[0xC3, 0x9C]]), -- U: U+00DC
    ([0x75], [[0xC3, 0xBC]]) -- u: U+00FC
  ]
  table_ligatures := [
    ([0x41, 0x45], [[0xC3, 0x84]]), -- AE: U+00C4
    ([0x61, 0x65], [[0xC3, 0xA4]]), -- ae: U+00E4
    ([0x4F, 0x45], [[0xC3, 0x96]]), -- OE: U+00D6
    ([0x6F, 0x65], [[0xC3, 0xB6]]), -- oe: U+00F6
    ([0x73, 0x73], [[0xC3, 0x9F]]), -- ss: U+00DF
    ([0x55, 0x45], [[0xC3, 0x9C]]), -- UE: U+00DC
    ([0x75, 0x65], [[0xC3, 0xBC]]) -- ue: U+00FC
  ]

/-- The table of the language `es`. -/
def table_es : substitution_table where
  table_letters := [
    ([0x41], [[0xC3, 0x81]]), -- A: U+00C1
    ([0x61], [[0xC3, 0xA1]]), -- a: U+00E1
    ([0x45], [[0xC3, 0x89]]), -- E: U+00C9
    ([0x65], [[0xC3, 0xA9]]), -- e: U+00E9
    ([0x49], [[0xC3, 0x8D]]), -- I: U+00CD
    ([0x69], [[0xC3, 0xAD]]), -- i: U+00ED
    ([0x4E], [[0xC3, 0x91]]), -- N: U+00D1
    ([0x6E], [[0xC3, 0xB1]]), -- n: U+00F1
    ([0x4F], [[0xC3, 0x93]]), -- O: U+00D3
    ([0x6F], [[0xC3, 0xB3]]), -- o: U+00F3
    ([0x55], [[0xC3, 0x9A], [0xC3, 0x9C]]), -- U: U+00DA U+00DC
    ([0x75], [[0xC3, 0xBA], [0xC3, 0xBC]]) -- u: U+00FA U+00FC
  ]
  table_ligatures := []

/-- The table of the language `et`. -/
def table_et : substitution_table where
  table_letters := [
    ([0x41], [[0xC3, 0x84]]), -- A: U+00C4
    ([0x61], [[0xC3, 0xA4]]), -- a: U+00E4
    ([0x4F], [[0xC3, 0x95], [0xC3, 0x96]]), -- O: U+00D5 U+00D6
    ([0x6F], [[0xC3, 0xB5], [0xC3, 0xB6]]), -- o: U+00F5 U+00F6
    ([0x53], [[0xC5, 0xA0]]), -- S: U+0160
    ([0x73], [[0xC5, 0xA1]]), -- s: U+0161
    ([0x55], [[0xC3, 0x9C]]), -- U: U+00DC
    ([0x75], [[0xC3, 0xBC]]), -- u: U+00FC
    ([0x5A], [[0xC5, 0xBD]]), -- Z: U+017D
    ([0x7A], [[0xC5, 0xBE]]) -- z: U+017E
  ]
  table_ligatures := []

/-- The table of the language `fi`. -/
def table_fi : substitution_table where
  table_letters := [
    ([0x41], [[0xC3, 0x84], [0xC3, 0x85]]), -- A: U+00C4 U+00C5
    ([0x61], [[0xC3, 0xA4], [0xC3, 0xA5]]), -- a: U+00E4 U+00E5
    ([0x4F], [[0xC3, 0x96]]), -- O: U+00D6
    ([0x6F], [[0xC3, 0xB6]]), -- o: U+00F6
    ([0x53], [[0xC5, 0xA0]]), -- S: U+0160
    ([0x73], [[0xC5, 0xA1]]), -- s: U+0161
    ([0x5A], [[0xC5, 0xBD]]), -- Z: U+017D
    ([0x7A], [[0xC5, 0xBE]]) -- z: U+017E
  ]
  table_ligatures := []

/-- The table of the language `fr`. -/
def table_fr : substitution_table where
  table_letters := [
    ([0x41], [[0xC3, 0x80], [0xC3, 0x82]]), -- A: U+00C0 U+00C2
    ([0x61], [[0xC3, 0xA0], [0xC3, 0xA2]]), -- a: U+00E0 U+00E2
    ([0x43], [[0xC3, 0x87]]), -- C: U+00C7
    ([0x63], [[0xC3, 0xA7]]), -- c: U+00E7
    ([0x45], [[0xC3, 0x88], [0xC3, 0x89], [0xC3, 0x8A], [0xC3, 0x8B]]), -- E: U+00C8 U+00C9 U+00CA U+00CB
    ([0x65], [[0xC3, 0xA8], [0xC3, 0xA9], [0xC3, 0xAA], [0xC3, 0xAB]]), -- e: U+00E8 U+00E9 U+00EA U+00EB
    ([0x49], [[0xC3, 0x8E], [0xC3, 0x8F]]), -- I: U+00CE U+00CF
    ([0x69], [[0xC3, 0xAE], [0xC3, 0xAF]]), -- i: U+00EE U+00EF
    ([0x4F], [[0xC3, 0x94]]), -- O: U+00D4
    ([0x6F], [[0xC3, 0xB4]]), -- o: U+00F4
    ([0x55], [[0xC3, 0x99], [0xC3, 0x9B], [0xC3, 0x9C]]), -- U: U+00D9 U+00DB U+00DC
    ([0x75], [[0xC3, 0xB9], [0xC3, 0xBB], [0xC3, 0xBC]]) -- u: U+00F9 U+00FB U+00FC
  ]
  table_ligatures := [
    ([0x41, 0x45], [[0xC3, 0x86]]), -- AE: U+00C6
    ([0x61, 0x65], [[0xC3, 0xA6]]), -- ae: U+00E6
    ([0x4F, 0x45], [[0xC5, 0x92]]), -- OE: U+0152
    ([0x6F, 0x65], [[0xC5, 0x93]]) -- oe: U+0153
  ]

/-- The table of the language `ga`. -/
def table_ga : substitution_table where
  table_letters := [
    ([0x41], [[0xC3, 0x81]]), -- A: U+00C1
    ([0x61], [[0xC3, 0xA1]]), -- a: U+00E1
    ([0x45], [[0xC3, 0x89]]), -- E: U+00C9
    ([0x65], [[0xC3, 0xA9]]), -- e: U+00E9
    ([0x49], [[0xC3, 0x8D]]), -- I: U+00CD
    ([0x69], [[0xC3, 0xAD]]), -- i: U+00ED
    ([0x4F], [[0xC3, 0x93]]), -- O: U+00D3
    ([0x6F], [[0xC3, 0xB3]]), -- o: U+00F3
    ([0x55], [[0xC3, 0x9A]]), -- U: U+00DA
    ([0x75], [[0xC3, 0xBA]]) -- u: U+00FA
  ]
  table_ligatures := []

/-- The table of the language `gd`. -/
def table_gd : substitution_table where
  table_letters := [
    ([0x41], [[0xC3, 0x80]]), -- A: U+00C0
    ([0x61], [[0xC3, 0xA0]]), -- a: U+00E0
    ([0x45], [[0xC3, 0x88]]), -- E: U+00C8
    ([0x65], [[0xC3, 0xA8]]), -- e: U+00E8
    ([0x49], [[0xC3, 0x8C]]), -- I: U+00CC
    ([0x69], [[0xC3, 0xAC]]), -- i: U+00EC
    ([0x4F], [[0xC3, 0x92]]), -- O: U+00D2
    ([0x6F], [[0xC3, 0xB2]]), -- o: U+00F2
    ([0x55], [[0xC3, 0x99]]), -- U: U+00D9
    ([0x75], [[0xC3, 0xB9]]) -- u: U+00F9
  ]
  table_ligatures := []

/-- The table of the language `gv`. -/
def table_gv : substitution_table where
  table_letters := []
  table_ligatures := [
    ([0x43, 0x68], [[0xC3, 0x87, 0x68]]), -- Ch: U+00C7 h
    ([0x63, 0x68], [[0xC3, 0xA7, 0x68]]) -- ch: U+00E7 h
  ]

/-- The table of the language `ht`. -/
def table_ht : substitution_table where
  table_letters := [
    ([0x45], [[0xC3, 0x88]]), -- E: U+00C8
    ([0x65], [[0xC3, 0xA8]]), -- e: U+00E8
    ([0x4F], [[0xC3, 0x92]]), -- O: U+00D2
    ([0x6F], [[0xC3, 0xB2]]) -- o: U+00F2
  ]
  table_ligatures := []

/-- The table of the language `hu`. -/
def table_hu : substitution_table where
  table_letters := [
    ([0x41], [[0xC3, 0x81]]), -- A: U+00C1
    ([0x61], [[0xC3, 0xA1]]), -- a: U+00E1
    ([0x45], [[0xC3, 0x89]]), -- E: U+00C9
    ([0x65], [[0xC3, 0xA9]]), -- e: U+00E9
    ([0x49], [[0xC3, 0x8D]]), -- I: U+00CD
    ([0x69], [[0xC3, 0xAD]]), -- i: U+00ED
    ([0x4F], [[0xC3, 0x93], [0xC3, 0x96], [0xC5, 0x90]]), -- O: U+00D3 U+00D6 U+0150
    ([0x6F], [[0xC3, 0xB3], [0xC3, 0xB6], [0xC5, 0x91]]), -- o: U+00F3 U+00F6 U+0151
    ([0x55], [[0xC3, 0x9A], [0xC3, 0x9C], [0xC5, 0xB0]]), -- U: U+00DA U+00DC U+0170
    ([0x75], [[0xC3, 0xBA], [0xC3, 0xBC], [0xC5, 0xB1]]) -- u: U+00FA U+00FC U+0171
  ]
  table_ligatures := []

/-- The table of the language `it`. -/
def table_it : substitution_table where
  table_letters := [
    ([0x41], [[0xC3, 0x80]]), -- A: U+00C0
    ([0x61], [[0xC3, 0xA0]]), -- a: U+00E0
    ([0x45], [[0xC3, 0x88], [0xC3, 0x89]]), -- E: U+00C8 U+00C9
    ([0x65], [[0xC3, 0xA8], [0xC3, 0xA9]]), -- e: U+00E8 U+00E9
    ([0x49], [[0xC3, 0x8C]]), -- I: U+00CC
    ([0x69], [[0xC3, 0xAC]]), -- i: U+00EC
    ([0x4F], [[0xC3, 0x92]]), -- O: U+00D2
    ([0x6F], [[0xC3, 0xB2]]), -- o: U+00F2
    ([0x55], [[0xC3, 0x99]]), -- U: U+00D9
    ([0x75], [[0xC3, 0xB9]]) -- u: U+00F9
  ]
  table_ligatures := []

/-- The table of the language `lt`. -/
def table_lt : substitution_table where
  table_letters := [
    ([0x41], [[0xC4, 0x84]]), -- A: U+0104
    ([0x61], [[0xC4, 0x85]]), -- a: U+0105
    ([0x43], [[0xC4, 0x8C]]), -- C: U+010C
    ([0x63], [[0xC4, 0x8D]]), -- c: U+010D
    ([0x45], [[0xC4, 0x96], [0xC4, 0x98]]), -- E: U+0116 U+0118
    ([0x65], [[0xC4, 0x97], [0xC4, 0x99]]), -- e: U+0117 U+0119
    ([0x49], [[0xC4, 0xAE]]), -- I: U+012E
    ([0x69], [[0xC4, 0xAF]]), -- i: U+012F
    ([0x53], [[0xC5, 0xA0]]), -- S: U+0160
    ([0x73], [[0xC5, 0xA1]]), -- s: U+0161
    ([0x55], [[0xC5, 0xAA], [0xC5, 0xB2]]), -- U: U+016A U+0172
    ([0x75], [[0xC5, 0xAB], [0xC5, 0xB3]]), -- u: U+016B U+0173
    ([0x5A], [[0xC5, 0xBD]]), -- Z: U+017D
    ([0x7A], [[0xC5, 0xBE]]) -- z: U+017E
  ]
  table_ligatures := []

/-- The table of the language `lv`. -/
def table_lv : substitution_table where
  table_letters := [
    ([0x41], [[0xC4, 0x80]]), -- A: U+0100
    ([0x61], [[0xC4, 0x81]]), -- a: U+0101
    ([0x43], [[0xC4, 0x8C]]), -- C: U+010C
    ([0x63], [[0xC4, 0x8D]]), -- c: U+010D
    ([0x45], [[0xC4, 0x92]]), -- E: U+0112
    ([0x65], [[0xC4, 0x93]]), -- e: U+0113
    ([0x47], [[0xC4, 0xA2]]), -- G: U+0122
    ([0x67], [[0xC4, 0xA3]]), -- g: U+0123
    ([0x49], [[0xC4, 0xAA]]), -- I: U+012A
    ([0x69], [[0xC4, 0xAB]]), -- i: U+012B
    ([0x4B], [[0xC4, 0xB6]]), -- K: U+0136
    ([0x6B], [[0xC4, 0xB7]]), -- k: U+0137
    ([0x4C], [[0xC4, 0xBB]]), -- L: U+013B
    ([0x6C], [[0xC4, 0xBC]]), -- l: U+013C
    ([0x4E], [[0xC5, 0x85]]), -- N: U+0145
    ([0x6E], [[0xC5, 0x86]]), -- n: U+0146
    ([0x53], [[0xC5, 0xA0]]), -- S: U+0160
    ([0x73], [[0xC5, 0xA1]]), -- s: U+0161
    ([0x55], [[0xC5, 0xAA]]), -- U: U+016A
    ([0x75], [[0xC5, 0xAB]]), -- u: U+016B
    ([0x5A], [[0xC5, 0xBD]]), -- Z: U+017D
    ([0x7A], [[0xC5, 0xBE]]) -- z: U+017E
  ]
  table_ligatures := []

/-- The table of the language `mi`. -/
def table_mi : substitution_table where
  table_letters := [
    ([0x41], [[0xC4, 0x80]]), -- A: U+0100
    ([0x61], [[0xC4, 0x81]]), -- a: U+0101
    ([0x45], [[0xC4, 0x92]]), -- E: U+0112
    ([0x65], [[0xC4, 0x93]]), -- e: U+0113
    ([0x49], [[0xC4, 0xAA]]), -- I: U+012A
    ([0x69], [[0xC4, 0xAB]]), -- i: U+012B
    ([0x4F], [[0xC5, 0x8C]]), -- O: U+014C
    ([0x6F], [[0xC5, 0x8D]]), -- o: U+014D
    ([0x55], [[0xC5, 0xAA]]), -- U: U+016A
    ([0x75], [[0xC5, 0xAB]]) -- u: U+016B
  ]
  table_ligatures := []

/-- The table of the language `mt`. -/
def table_mt : substitution_table where
  table_letters := [
    ([0x61], [[0xC3, 0xA0]]), -- a: U+00E0
    ([0x43], [[0xC4, 0x8A]]), -- C: U+010A
    ([0x63], [[0xC4, 0x8B]]), -- c: U+010B
    ([0x65], [[0xC3, 0xA8]]), -- e: U+00E8
    ([0x47], [[0xC4, 0xA0]]), -- G: U+0120
    ([0x67], [[0xC4, 0xA1]]), -- g: U+0121
    ([0x48], [[0xC4, 0xA6]]), -- H: U+0126
    ([0x68], [[0xC4, 0xA7]]), -- h: U+0127
    ([0x69], [[0xC3, 0xAC]]), -- i: U+00EC
    ([0x6F], [[0xC3, 0xB2]]), -- o: U+00F2
    ([0x75], [[0xC3, 0xB9]]), -- u: U+00F9
    ([0x5A], [[0xC5, 0xBB]]), -- Z: U+017B
    ([0x7A], [[0xC5, 0xBC]]) -- z: U+017C
  ]
  table_ligatures := []

/-- The table of the language `nl`. -/
def table_nl : substitution_table where
  table_letters := [
    ([0x41], [[0xC3, 0x81], [0xC3, 0x84]]), -- A: U+00C1 U+00C4
    ([0x61], [[0xC3, 0xA1], [0xC3, 0xA4]]), -- a: U+00E1 U+00E4
    ([0x45], [[0xC3, 0x89], [0xC3, 0x8B]]), -- E: U+00C9 U+00CB
    ([0x65], [[0xC3, 0xA9], [0xC3, 0xAB]]), -- e: U+00E9 U+00EB
    ([0x49], [[0xC3, 0x8D], [0xC3, 0x8F]]), -- I: U+00CD U+00CF
    ([0x69], [[0xC3, 0xAD], [0xC3, 0xAF]]), -- i: U+00ED U+00EF
    ([0x4F], [[0xC3, 0x93], [0xC3, 0x96]]), -- O: U+00D3 U+00D6
    ([0x6F], [[0xC3, 0xB3], [0xC3, 0xB6]]), -- o: U+00F3 U+00F6
    ([0x55], [[0xC3, 0x9A], [0xC3, 0x9C]]), -- U: U+00DA U+00DC
    ([0x75], [[0xC3, 0xBA], [0xC3, 0xBC]]) -- u: U+00FA U+00FC
  ]
  table_ligatures := []

/-- The table of the language `pl`. -/
def table_pl : substitution_table where
  table_letters := [
    ([0x41], [[0xC4, 0x84]]), -- A: U+0104
    ([0x61], [[0xC4, 0x85]]), -- a: U+0105
    ([0x43], [[0xC4, 0x86]]), -- C: U+0106
    ([0x63], [[0xC4, 0x87]]), -- c: U+0107
    ([0x45], [[0xC4, 0x98]]), -- E: U+0118
    ([0x65], [[0xC4, 0x99]]), -- e: U+0119
    ([0x4C], [[0xC5, 0x81]]), -- L: U+0141
    ([0x6C], [[0xC5, 0x82]]), -- l: U+0142
    ([0x4E], [[0xC5, 0x83]]), -- N: U+0143
    ([0x6E], [[0xC5, 0x84]]), -- n: U+0144
    ([0x4F], [[0xC3, 0x93]]), -- O: U+00D3
    ([0x6F], [[0xC3, 0xB3]]), -- o: U+00F3
    ([0x53], [[0xC5, 0x9A]]), -- S: U+015A
    ([0x73], [[0xC5, 0x9B]]), -- s: U+015B
    ([0x5A], [[0xC5, 0xB9], [0xC5, 0xBB]]), -- Z: U+0179 U+017B
    ([0x7A], [[0xC5, 0xBA], [0xC5, 0xBC]]) -- z: U+017A U+017C
  ]
  table_ligatures := []

/-- The table of the language `pt`. -/
def table_pt : substitution_table where
  table_letters := [
    ([0x41], [[0xC3, 0x81], [0xC3, 0x82], [0xC3, 0x83]]), -- A: U+00C1 U+00C2 U+00C3
    ([0x61], [[0xC3, 0xA1], [0xC3, 0xA2], [0xC3, 0xA3]]), -- a: U+00E1 U+00E2 U+00E3
    ([0x43], [[0xC3, 0x87]]), -- C: U+00C7
    ([0x63], [[0xC3, 0xA7]]), -- c: U+00E7
    ([0x45], [[0xC3, 0x89], [0xC3, 0x8A]]), -- E: U+00C9 U+00CA
    ([0x65], [[0xC3, 0xA9], [0xC3, 0xAA]]), -- e: U+00E9 U+00EA
    ([0x49], [[0xC3, 0x8D]]), -- I: U+00CD
    ([0x69], [[0xC3, 0xAD]]), -- i: U+00ED
    ([0x4F], [[0xC3, 0x93], [0xC3, 0x94], [0xC3, 0x95]]), -- O: U+00D3 U+00D4 U+00D5
    ([0x6F], [[0xC3, 0xB3], [0xC3, 0xB4], [0xC3, 0xB5]]), -- o: U+00F3 U+00F4 U+00F5
    ([0x55], [[0xC3, 0x9A]]), -- U: U+00DA
    ([0x75], [[0xC3, 0xBA]]) -- u: U+00FA
  ]
  table_ligatures := []

/-- The table of the language `ro`. -/
def table_ro : substitution_table where
  table_letters := [
    ([0x41], [[0xC3, 0x82], [0xC4, 0x82]]), -- A: U+00C2 U+0102
    ([0x61], [[0xC3, 0xA2], [0xC4, 0x83]]), -- a: U+00E2 U+0103
    ([0x49], [[0xC3, 0x8E]]), -- I: U+00CE
    ([0x69], [[0xC3, 0xAE]]), -- i: U+00EE
    ([0x53], [[0xC8, 0x98]]), -- S: U+0218
    ([0x73], [[0xC8, 0x99]]), -- s: U+0219
    ([0x54], [[0xC8, 0x9A]]), -- T: U+021A
    ([0x74], [[0xC8, 0x9B]]) -- t: U+021B
  ]
  table_ligatures := []

/-- The table of the language `sq`. -/
def table_sq : substitution_table where
  table_letters := [
    ([0x43], [[0xC3, 0x87]]), -- C: U+00C7
    ([0x63], [[0xC3, 0xA7]]), -- c: U+00E7
    ([0x45], [[0xC3, 0x8B]]), -- E: U+00CB
    ([0x65], [[0xC3, 0xAB]]) -- e: U+00EB
  ]
  table_ligatures := []

/-- The table of the language `sv`. -/
def table_sv : substitution_table where
  table_letters := [
    ([0x41], [[0xC3, 0x84], [0xC3, 0x85]]), -- A: U+00C4 U+00C5
    ([0x61], [[0xC3, 0xA4], [0xC3, 0xA5]]), -- a: U+00E4 U+00E5
    ([0x4F], [[0xC3, 0x96]]), -- O: U+00D6
    ([0x6F], [[0xC3, 0xB6]]) -- o: U+00F6
  ]
  table_ligatures := []

/-- The table of the language `tk`. -/
def table_tk : substitution_table where
  table_letters := [
    ([0x41], [[0xC3, 0x84]]), -- A: U+00C4
    ([0x61], [[0xC3, 0xA4]]), -- a: U+00E4
    ([0x43], [[0xC3, 0x87]]), -- C: U+00C7
    ([0x63], [[0xC3, 0xA7]]), -- c: U+00E7
    ([0x4E], [[0xC5, 0x87]]), -- N: U+0147
    ([0x6E], [[0xC5, 0x88]]), -- n: U+0148
    ([0x4F], [[0xC3, 0x96]]), -- O: U+00D6
    ([0x6F], [[0xC3, 0xB6]]), -- o: U+00F6
    ([0x53], [[0xC5, 0x9E]]), -- S: U+015E
    ([0x73], [[0xC5, 0x9F]]), -- s: U+015F
    ([0x55], [[0xC3, 0x9C]]), -- U: U+00DC
    ([0x75], [[0xC3, 0xBC]]), -- u: U+00FC
    ([0x59], [[0xC3, 0x9D]]), -- Y: U+00DD
    ([0x79], [[0xC3, 0xBD]]), -- y: U+00FD
    ([0x5A], [[0xC5, 0xBD]]), -- Z: U+017D
    ([0x7A], [[0xC5, 0xBE]]) -- z: U+017E
  ]
  table_ligatures := []

/-- The table of the language `tl`. -/
def table_tl : substitution_table where
  table_letters := [
    ([0x4E], [[0xC3, 0x91]]), -- N: U+00D1
    ([0x6E], [[0xC3, 0xB1]]) -- n: U+00F1
  ]
  table_ligatures := []

/-- The table of the language `tr`. -/
def table_tr : substitution_table where
  table_letters := [
    ([0x61], [[0xC3, 0xA2]]), -- a: U+00E2
    ([0x43], [[0xC3, 0x87]]), -- C: U+00C7
    ([0x63], [[0xC3, 0xA7]]), -- c: U+00E7
    ([0x47], [[0xC4, 0x9E]]), -- G: U+011E
    ([0x67], [[0xC4, 0x9F]]), -- g: U+011F
    ([0x49], [[0xC4, 0xB0]]), -- I: U+0130
    ([0x69], [[0xC3, 0xAE], [0xC4, 0xB1]]), -- i: U+00EE U+0131
    ([0x4F], [[0xC3, 0x96]]), -- O: U+00D6
    ([0x6F], [[0xC3, 0xB6]]), -- o: U+00F6
    ([0x53], [[0xC5, 0x9E]]), -- S: U+015E
    ([0x73], [[0xC5, 0x9F]]), -- s: U+015F
    ([0x55], [[0xC3, 0x9C]]), -- U: U+00DC
    ([0x75], [[0xC3, 0xBB], [0xC3, 0xBC]]) -- u: U+00FB U+00FC
  ]
  table_ligatures := []

/-- The table of the language `wa`. -/
def table_wa : substitution_table where
  table_letters := [
    ([0x41], [[0xC3, 0x80], [0xC3, 0x82], [0xC3, 0x85]]), -- A: U+00C0 U+00C2 U+00C5
    ([0x61], [[0xC3, 0xA0], [0xC3, 0xA2], [0xC3, 0xA5]]), -- a: U+00E0 U+00E2 U+00E5
    ([0x43], [[0xC3, 0x87]]), -- C: U+00C7
    ([0x63], [[0xC3, 0xA7]]), -- c: U+00E7
    ([0x45], [[0xC3, 0x88], [0xC3, 0x89], [0xC3, 0x8A], [0xC3, 0x8B]]), -- E: U+00C8 U+00C9 U+00CA U+00CB
    ([0x65], [[0xC3, 0xA8], [0xC3, 0xA9], [0xC3, 0xAA], [0xC3, 0xAB]]), -- e: U+00E8 U+00E9 U+00EA U+00EB
    ([0x49], [[0xC3, 0x8C], [0xC3, 0x8E]]), -- I: U+00CC U+00CE
    ([0x69], [[0xC3, 0xAC], [0xC3, 0xAE]]), -- i: U+00EC U+00EE
    ([0x4F], [[0xC3, 0x94], [0xC3, 0x96]]), -- O: U+00D4 U+00D6
    ([0x6F], [[0xC3, 0xB4], [0xC3, 0xB6]]), -- o: U+00F4 U+00F6
    ([0x55], [[0xC3, 0x99], [0xC3, 0x9B]]), -- U: U+00D9 U+00DB
    ([0x75], [[0xC3, 0xB9], [0xC3, 0xBB]]) -- u: U+00F9 U+00FB
  ]
  table_ligatures := []

/-- The map `SUBSTITUTION_TABLES`, as the list of its entries in the order of
the source: the two bytes of the language code and the table. -/
def SUBSTITUTION_TABLES : List (Str × substitution_table) := [
  ([0x61, 0x66], table_af),
  ([0x64, 0x65], table_de),
  ([0x65, 0x73], table_es),
  ([0x65, 0x74], table_et),
  ([0x66, 0x69], table_fi),
  ([0x66, 0x72], table_fr),
  ([0x67, 0x61], table_ga),
  ([0x67, 0x64], table_gd),
  ([0x67, 0x76], table_gv),
  ([0x68, 0x74], table_ht),
  ([0x68, 0x75], table_hu),
  ([0x69, 0x74], table_it),
  ([0x6C, 0x74], table_lt),
  ([0x6C, 0x76], table_lv),
  ([0x6D, 0x69], table_mi),
  ([0x6D, 0x74], table_mt),
  ([0x6E, 0x6C], table_nl),
  ([0x70, 0x6C], table_pl),
  ([0x70, 0x74], table_pt),
  ([0x72, 0x6F], table_ro),
  ([0x73, 0x71], table_sq),
  ([0x73, 0x76], table_sv),
  ([0x74, 0x6B], table_tk),
  ([0x74, 0x6C], table_tl),
  ([0x74, 0x72], table_tr),
  ([0x77, 0x61], table_wa)
]

/-- The lookup `SUBSTITUTION_TABLES.find(key)` followed by
`SUBSTITUTION_TABLES.at(key)`. -/
def find_table : List (Str × substitution_table) → Str → Option substitution_table
  | [], _ => none
  | (k, t) :: rest, key => if k = key then some t else find_table rest key

/-- The choice of `sub_table` in `Speller_init`: the table of the first two
bytes of the language code, `lang_code.substr(0, 2)`, or a null pointer. -/
def Speller_init_sub_table (lang_code : Str) : Option substitution_table :=
  find_table SUBSTITUTION_TABLES (lang_code.take 2)


/-! ## Reference definitions for the two phases -/

/-- The general algorithm of `substitute`, without the shortcuts for an empty
map: the ligature phase always runs the generator, and so does the letter
phase over each of its outputs. -/
def substitute_without_shortcuts (t : substitution_table) (original : Str) :
    Except Fault (List Str) :=
  match generate_substitutions t.table_ligatures original [] 0 [] 2 with
  | .error e => .error e
  | .ok ligs =>
    ligs.foldlM (fun result s => generate_substitutions t.table_letters s result 0 [] 1) []

/-- The replacements listed for a key, none when the key is absent. -/
def listed (m : StrMap) (key : Str) : List Str :=
  (m.find key).getD []

/-- One piece of a reading of the word by the ligature phase: a byte kept as
it is, or the two bytes `a b` at a selected position replaced by the `j`-th
replacement listed for them. -/
inductive Segment where
  | keep (c : Nat)
  | replace (a b : Nat) (j : Nat)
  deriving DecidableEq, Repr

/-- The bytes of the word that a piece stands for. -/
def Segment.source : Segment → Str
  | .keep c => [c]
  | .replace a b _ => [a, b]

/-- The bytes that a piece puts into the candidate. -/
def Segment.output (m : StrMap) : Segment → Str
  | .keep c => [c]
  | .replace a b j => (listed m [a, b]).getD j []

/-- A replaced slice must be a key and its choice one of the listed
replacements. -/
def Segment.valid (m : StrMap) : Segment → Prop
  | .keep _ => True
  | .replace a b j => j < (listed m [a, b]).length

/-- The readings of a word: every way of selecting non-overlapping two-byte
slices that are keys, with a replacement chosen for each, the other bytes
being kept. A reading lists its pieces from left to right. -/
def segmentations (m : StrMap) : Str → List (List Segment)
  | [] => [[]]
  | [c] => [[.keep c]]
  | c :: d :: rest =>
    (segmentations m (d :: rest)).map (Segment.keep c :: ·) ++
      (List.range (listed m [c, d]).length).flatMap
        (fun j => (segmentations m rest).map (Segment.replace c d j :: ·))

/-- The candidate that a reading stands for. -/
def reading_output (m : StrMap) (segs : List Segment) : Str :=
  segs.flatMap (Segment.output m)

/-- What the letter phase may make of a piece when it leaves the text
emitted for a replaced slice alone: a kept byte is kept or replaced by one of
its letter variants, the replacement of a slice stays as it is. -/
def Segment.letter_choices (t : substitution_table) : Segment → List Str
  | .keep c => choices t.table_letters c
  | .replace a b j => [Segment.output t.table_ligatures (.replace a b j)]

/-- The concatenations of one string from each list, in order. -/
def product_of : List (List Str) → List Str
  | [] => [[]]
  | cs :: rest => cs.flatMap (fun x => (product_of rest).map (x ++ ·))

/-- The candidates under ligature priority: for each reading of the word by
the ligature phase, the letter substitutions of its kept bytes only. -/
def priority_candidates (t : substitution_table) (w : Str) : List Str :=
  (segmentations t.table_ligatures w).flatMap
    (fun segs => product_of (segs.map (Segment.letter_choices t)))

/-! ## The generator with a record of what it does -/

/-- What a call of `generate_substitutions` does that the traversal claims are
about: it is entered with an index, it reads the character `input[index]`, it
appends a string to `result`. -/
inductive Event where
  | enter (index : Nat)
  | read (index : Nat)
  | push (s : Str)
  deriving DecidableEq, Repr

/-- The body of `substitution_table::generate_substitutions` once more, now
threading next to `result` the list of the events so far: `enter index` at
every call, `push current` with the `push_back`, `read index` where
`input[index]` is evaluated for the first recursive call. -/
def generate_substitutions_traced (map : StrMap) (input : Str) (len_of_key : Nat) :
    Nat → List Str × List Event → Nat → Str → Except Fault (List Str × List Event)
  | 0, _, _, _ => .error .no_return
  | fuel + 1, state, index, current =>
    if index = input.length then
      .ok (state.1 ++ [current], state.2 ++ [Event.enter index, Event.push current])
    else
      match substr input index len_of_key with
      | .error e => .error e
      | .ok current_chars =>
        match generate_substitutions_traced map input len_of_key fuel
            (state.1, state.2 ++ [Event.enter index, Event.read index]) (index + 1)
            (current ++ [input.getD index 0]) with
        | .error e => .error e
        | .ok state1 =>
          match map.find current_chars with
          | none => .ok state1
          | some variants =>
            variants.foldlM
              (fun acc s =>
                generate_substitutions_traced map input len_of_key fuel acc
                  (index + len_of_key) (current ++ s))
              state1

/-- An event stays inside an input of `n` bytes: a call has `index ≤ n`, a
character is read at an `index < n`. -/
def Event.in_bounds (n : Nat) : Event → Prop
  | .enter index => index ≤ n
  | .read index => index < n
  | .push _ => True

/-- The strings appended by the events of a record, in order. -/
def pushes : List Event → List Str
  | [] => []
  | .push s :: rest => s :: pushes rest
  | _ :: rest => pushes rest

/-- The number of calls entered at the end of an input of `n` bytes. -/
def completions (n : Nat) : List Event → Nat
  | [] => 0
  | .enter index :: rest => (if index = n then 1 else 0) + completions n rest
  | _ :: rest => completions n rest

/-- A record accounts for the strings `out` over an input of `n` bytes: every
event is in bounds, the strings appended are `out`, and there are as many of
them as calls entered at the end of the input. -/
def accounts_for (n : Nat) (out : List Str) (trace : List Event) : Prop :=
  (∀ e ∈ trace, e.in_bounds n) ∧ pushes trace = out ∧ completions n trace = out.length

/-! ## Reference notions for the canonical key -/

/-- The string that `simplify` hands to `toUTF8String`: the normalised input
after the filter loop and the six replacements. -/
def simplify_units (icu : Icu) (s : Str) : UnicodeString :=
  simplify_fold (simplify_filter icu (icu.normalize (icu.fromUTF8 s)))

/-- A Unicode scalar value: a code point up to U+10FFFF that is not a
surrogate. -/
def is_scalar_value (c : Nat) : Prop := c < 0xD800 ∨ (0xE000 ≤ c ∧ c ≤ 0x10FFFF)

/-- Well-formed UTF-16: every code unit has 16 bits, every lead surrogate is
followed by a trail surrogate and every trail surrogate follows a lead
surrogate. -/
def well_formed_utf16 (us : UnicodeString) : Prop :=
  ∀ i < us.length,
    us.getD i 0 ≤ 0xFFFF ∧
    (U16_IS_LEAD (us.getD i 0) = true →
      i + 1 < us.length ∧ U16_IS_TRAIL (us.getD (i + 1) 0) = true) ∧
    (U16_IS_TRAIL (us.getD i 0) = true →
      0 < i ∧ U16_IS_LEAD (us.getD (i - 1) 0) = true)

instance (us : UnicodeString) : Decidable (well_formed_utf16 us) := by
  unfold well_formed_utf16
  infer_instance

/-- One of the six ligature code points that `simplify` replaces. -/
def is_ligature (c : Nat) : Prop :=
  c = 0x1E9E ∨ c = 0x00DF ∨ c = 0x00C6 ∨ c = 0x00E6 ∨ c = 0x0152 ∨ c = 0x0153

/-- An ASCII letter or digit. -/
def is_ascii_alnum (c : Nat) : Prop :=
  (0x30 ≤ c ∧ c ≤ 0x39) ∨ (0x41 ≤ c ∧ c ≤ 0x5A) ∨ (0x61 ≤ c ∧ c ≤ 0x7A)

instance (c : Nat) : Decidable (is_ascii_alnum c) := by
  unfold is_ascii_alnum
  infer_instance

/-- What ICU does to a string of ASCII letters and digits: its UTF-16 code
units are its UTF-8 bytes, NFKD leaves it as it is, and none of its characters
is in the banned set. -/
def ascii_transparent (icu : Icu) (w : Str) : Prop :=
  icu.fromUTF8 w = w ∧ icu.normalize w = w ∧
    (∀ c ∈ w, icu.banned_set_contains c = false) ∧ icu.toUTF8String w = w

/-! ## Reference notions for the absence of duplicates -/

/-- Every replacement a table lists, for letters and for ligatures. -/
def replacements (t : substitution_table) : List Str :=
  t.table_letters.flatMap (·.2) ++ t.table_ligatures.flatMap (·.2)

/-- The candidates of a word read from the left: the first byte is kept or
replaced by one of its letter variants and the rest of the word follows, or
the first two bytes are replaced by one of the replacements listed for them
and the word after them follows. -/
def candidates_rec (t : substitution_table) : Str → List Str
  | [] => [[]]
  | [c] => choices t.table_letters c
  | c :: d :: rest =>
    (choices t.table_letters c).flatMap
        (fun x => (candidates_rec t (d :: rest)).map (x ++ ·)) ++
      (listed t.table_ligatures [c, d]).flatMap
        (fun r => (candidates_rec t rest).map (r ++ ·))

/-- What makes the substitution paths of a table tell apart in their output:
the ligature keys have two bytes; all replacements have the same length and
start with a byte outside ASCII; no key lists a replacement twice; no byte of
a ligature replacement is a letter key; and where a ligature replacement is
also a letter variant of the first byte of its key, the second byte of the key
has no letter variant and starts no ligature key. -/
def distinguishable (t : substitution_table) : Prop :=
  (∀ kv ∈ t.table_ligatures, kv.1.length = 2) ∧
  (∀ r ∈ replacements t, r.length = ((replacements t).headD []).length) ∧
  (∀ r ∈ replacements t, 0x80 ≤ r.headD 0) ∧
  (∀ kv ∈ t.table_letters, kv.2.Nodup) ∧
  (∀ kv ∈ t.table_ligatures, kv.2.Nodup) ∧
  (∀ kv ∈ t.table_ligatures, ∀ r ∈ kv.2, ∀ b ∈ r, t.table_letters.find [b] = none) ∧
  (∀ kv ∈ t.table_ligatures, ∀ r ∈ kv.2, r ∈ listed t.table_letters (kv.1.take 1) →
    t.table_letters.find (kv.1.drop 1) = none ∧
      ∀ kv2 ∈ t.table_ligatures, kv2.1.take 1 ≠ kv.1.drop 1)

instance (t : substitution_table) : Decidable (distinguishable t) := by
  unfold distinguishable
  infer_instance

/-- Every byte of every key of the table is ASCII. -/
def ascii_keys (t : substitution_table) : Prop :=
  (∀ kv ∈ t.table_letters, ∀ b ∈ kv.1, b < 0x80) ∧
  (∀ kv ∈ t.table_ligatures, ∀ b ∈ kv.1, b < 0x80)

instance (t : substitution_table) : Decidable (ascii_keys t) := by
  unfold ascii_keys
  infer_instance

/-! ## Guard predicates -/

theorem c_locale_print_not_space (c : Nat) :
    (c_locale.isprint c = true ∧ c_locale.isspace c = false) ↔ (0x21 ≤ c ∧ c ≤ 0x7E) := by
  simp only [c_locale, decide_eq_true_eq, decide_eq_false_iff_not]
  omega

theorem is_substitutable_iff_all (locale : Locale) (s : Str) :
    is_substitutable locale s = true ↔
      ∀ c ∈ s, locale.isprint c = true ∧ locale.isspace c = false := by
  simp only [is_substitutable, Bool.and_eq_true, List.all_eq_true, Bool.not_eq_true',
    List.any_eq_false, Bool.not_eq_true]
  constructor
  · rintro ⟨h1, h2⟩ c hc
    exact ⟨h1 c hc, h2 c hc⟩
  · intro h
    exact ⟨fun c hc => (h c hc).1, fun c hc => (h c hc).2⟩

theorem string_find_isSome_iff (c : Str) :
    ∀ s : Str, (string_find s c).isSome = true ↔ ∃ a b, s = a ++ c ++ b := by
  intro s
  induction s with
  | nil =>
    by_cases hc : c = []
    · subst hc
      simp [string_find]
    · simp only [string_find, hc, if_false, Option.isSome_none, Bool.false_eq_true,
        false_iff, not_exists]
      intro a b h
      have h2 := congrArg List.length h
      simp only [List.length_nil, List.length_append] at h2
      have : c.length = 0 := by omega
      exact hc (List.length_eq_zero.mp this)
  | cons x rest ih =>
    unfold string_find
    by_cases hp : c.isPrefixOf (x :: rest) = true
    · simp only [hp, if_true, Option.isSome_some, true_iff]
      obtain ⟨t, ht⟩ := List.isPrefixOf_iff_prefix.mp hp
      exact ⟨[], t, by simpa using ht.symm⟩
    · simp only [hp, Bool.false_eq_true, if_false, Option.isSome_map']
      rw [ih]
      constructor
      · rintro ⟨a, b, h⟩
        exact ⟨x :: a, b, by simp [h]⟩
      · rintro ⟨a, b, h⟩
        cases a with
        | nil =>
          exfalso
          apply hp
          apply List.isPrefixOf_iff_prefix.mpr
          exact ⟨b, by simpa using h.symm⟩
        | cons y a =>
          simp only [List.cons_append, List.cons.injEq] at h
          exact ⟨a, b, by simpa using h.2⟩

theorem string_find_singleton (s : Str) (x : Nat) :
    (string_find s [x]).isNone = true ↔ x ∉ s := by
  have h := string_find_isSome_iff [x] s
  rw [← Option.not_isSome, ← Bool.not_eq_true, h]
  constructor
  · intro hn hx
    obtain ⟨a, b, hab⟩ := List.append_of_mem hx
    exact hn ⟨a, b, by simpa using hab⟩
  · rintro hn ⟨a, b, hab⟩
    exact hn (by simp [hab])

/-- In the "C" locale `is_substitutable(s)` holds exactly when every byte of
`s` lies in `0x21..0x7E`; there the empty string and "cafe" are substitutable,
"café" and "cafe " are not. -/
theorem is_substitutable_c_locale :
    (∀ (locale : Locale) (s : Str), is_substitutable locale s = true ↔
      ((∀ c ∈ s, locale.isprint c = true) ∧ (∀ c ∈ s, locale.isspace c = false))) ∧
    (∀ s : Str, is_substitutable c_locale s = true ↔ ∀ c ∈ s, 0x21 ≤ c ∧ c ≤ 0x7E) ∧
    is_substitutable c_locale [] = true ∧
    is_substitutable c_locale [0x63, 0x61, 0x66, 0xC3, 0xA9] = false ∧
    is_substitutable c_locale [0x63, 0x61, 0x66, 0x65, 0x20] = false ∧
    is_substitutable c_locale [0x63, 0x61, 0x66, 0x65] = true := by
  refine ⟨?_, ?_, by decide, by decide, by decide, by decide⟩
  · intro locale s
    rw [is_substitutable_iff_all]
    exact ⟨fun h => ⟨fun c hc => (h c hc).1, fun c hc => (h c hc).2⟩,
      fun h c hc => ⟨h.1 c hc, h.2 c hc⟩⟩
  · intro s
    rw [is_substitutable_iff_all]
    exact ⟨fun h c hc => (c_locale_print_not_space c).mp (h c hc),
      fun h c hc => (c_locale_print_not_space c).mpr (h c hc)⟩

/-- C8: in a locale that classifies the bytes `C3` and `A9` as printable and
not as white space, as a single-byte ISO-8859-1 locale does, and the letters
"c", "a", "f" as every locale does, `is_substitutable("café")` is true, although
the last two bytes of the word are not printable ASCII. -/
theorem is_substitutable_single_byte_locale (locale : Locale)
    (hprint : ∀ c ∈ [0x63, 0x61, 0x66, 0xC3, 0xA9], locale.isprint c = true)
    (hspace : ∀ c ∈ [0x63, 0x61, 0x66, 0xC3, 0xA9], locale.isspace c = false) :
    is_substitutable locale [0x63, 0x61, 0x66, 0xC3, 0xA9] = true ∧
    ¬ (∀ c ∈ [0x63, 0x61, 0x66, 0xC3, 0xA9], 0x21 ≤ c ∧ c ≤ 0x7E) := by
  constructor
  · rw [is_substitutable_iff_all]
    exact fun c hc => ⟨hprint c hc, hspace c hc⟩
  · decide

/-- Witness of C8: the ISO-8859-1 locale accepts "café", the "C" locale does
not. -/
theorem is_substitutable_single_byte_locale_witness :
    is_substitutable latin1_locale [0x63, 0x61, 0x66, 0xC3, 0xA9] = true ∧
    is_substitutable c_locale [0x63, 0x61, 0x66, 0xC3, 0xA9] = false :=
  ⟨(is_substitutable_single_byte_locale latin1_locale (by decide) (by decide)).1, by decide⟩

/-- C9: `is_without_banned_chars(s)` holds exactly when `s` contains no space
byte, no hyphen-minus byte, no apostrophe byte and no occurrence of the three
bytes `E2 80 99` that encode U+2019 in UTF-8. -/
theorem is_without_banned_chars_spec (s : Str) :
    is_without_banned_chars s = true ↔
      (0x20 ∉ s ∧ 0x2D ∉ s ∧ 0x27 ∉ s ∧ ¬ ∃ a b, s = a ++ [0xE2, 0x80, 0x99] ++ b) := by
  have h4 := string_find_isSome_iff [0xE2, 0x80, 0x99] s
  simp only [is_without_banned_chars, BANNED_CHARS, List.all_cons, List.all_nil,
    Bool.and_true, Bool.and_eq_true, string_find_singleton]
  rw [← h4, ← Option.not_isSome, Bool.not_eq_true]

/-! ## The candidate generator -/

/-- A loop whose body appends to the accumulator appends the concatenation of
what each round appends. -/
theorem foldlM_append_ok (g : List Str → Str → Except Fault (List Str))
    (h : Str → List Str) (hg : ∀ acc s, g acc s = .ok (acc ++ h s)) :
    ∀ (vs : List Str) (r : List Str), vs.foldlM g r = .ok (r ++ vs.flatMap h) := by
  intro vs
  induction vs with
  | nil => intro r; simp [pure, Except.pure]
  | cons v vs ih =>
    intro r
    rw [List.foldlM_cons, hg]
    simp only [bind, Except.bind]
    rw [ih]
    simp [List.flatMap_cons]

/-- A loop whose body treats the accumulator as a prefix does so as a whole. -/
theorem foldlM_frame (g : List Str → Str → Except Fault (List Str))
    (hg : ∀ acc s, g acc s = (g [] s).map (acc ++ ·)) :
    ∀ (vs : List Str) (r : List Str), vs.foldlM g r = (vs.foldlM g []).map (r ++ ·) := by
  intro vs
  induction vs with
  | nil => intro r; simp [pure, Except.pure, Except.map]
  | cons v vs ih =>
    intro r
    rw [List.foldlM_cons, List.foldlM_cons, hg r v]
    cases hv : g [] v with
    | error e => simp [bind, Except.bind, Except.map]
    | ok x =>
      simp only [bind, Except.bind, Except.map]
      rw [ih (r ++ x), ih x]
      cases vs.foldlM g [] with
      | error e => simp [Except.map]
      | ok y => simp [Except.map]

/-- The generator only ever appends to `result`. -/
theorem generate_substitutions_fuel_frame (map : StrMap) (input : Str) (len_of_key : Nat) :
    ∀ (fuel : Nat) (result : List Str) (index : Nat) (current : Str),
      generate_substitutions_fuel map input len_of_key fuel result index current =
        (generate_substitutions_fuel map input len_of_key fuel [] index current).map
          (result ++ ·) := by
  intro fuel
  induction fuel with
  | zero => intro result index current; simp [generate_substitutions_fuel, Except.map]
  | succ fuel ih =>
    intro result index current
    unfold generate_substitutions_fuel
    by_cases hi : index = input.length
    · simp [hi, Except.map]
    · simp only [hi, if_false]
      cases substr input index len_of_key with
      | error e => simp [Except.map]
      | ok current_chars =>
        simp only []
        rw [ih result (index + 1)]
        cases generate_substitutions_fuel map input len_of_key fuel [] (index + 1)
            (current ++ [input.getD index 0]) with
        | error e => simp [Except.map]
        | ok r1 =>
          simp only [Except.map]
          cases map.find current_chars with
          | none => simp
          | some variants =>
            simp only []
            rw [foldlM_frame _ (fun acc s => ih acc (index + len_of_key) (current ++ s))
              variants (result ++ r1),
              foldlM_frame _ (fun acc s => ih acc (index + len_of_key) (current ++ s))
              variants r1]
            cases variants.foldlM (fun acc s =>
                generate_substitutions_fuel map input len_of_key fuel acc
                  (index + len_of_key) (current ++ s)) [] with
            | error e => simp [Except.map]
            | ok y => simp [Except.map]

/-- With an empty map the generator emits the one string made of `current`
followed by the rest of the input. -/
theorem generate_substitutions_fuel_empty (input : Str) (len_of_key : Nat) :
    ∀ (fuel : Nat) (result : List Str) (index : Nat) (current : Str),
      index ≤ input.length → input.length + 1 ≤ fuel + index →
      generate_substitutions_fuel [] input len_of_key fuel result index current =
        .ok (result ++ [current ++ input.drop index]) := by
  intro fuel
  induction fuel with
  | zero => intro result index current h1 h2; omega
  | succ fuel ih =>
    intro result index current h1 h2
    unfold generate_substitutions_fuel
    by_cases hi : index = input.length
    · simp [hi]
    · have hlt : index < input.length := by omega
      have hsub : substr input index len_of_key = .ok ((input.drop index).take len_of_key) := by
        simp [substr]; omega
      simp only [hi, if_false, hsub]
      rw [ih result (index + 1) _ (by omega) (by omega)]
      simp only [StrMap.find]
      rw [List.drop_eq_getElem_cons hlt, List.getD_eq_getElem _ _ hlt]
      simp

theorem generate_substitutions_empty (input : Str) (len_of_key : Nat) :
    generate_substitutions [] input [] 0 [] len_of_key = .ok [input] := by
  unfold generate_substitutions
  rw [generate_substitutions_fuel_empty input len_of_key _ [] 0 [] (by omega) (by omega)]
  simp

/-- The letter phase (keys of length 1) emits, after `result`, the Cartesian
product of the choices of the remaining positions, each prefixed by `current`. -/
theorem generate_substitutions_fuel_letters (m : StrMap) (input : Str) :
    ∀ (fuel : Nat) (result : List Str) (index : Nat) (current : Str),
      index ≤ input.length → input.length + 1 ≤ fuel + index →
      generate_substitutions_fuel m input 1 fuel result index current =
        .ok (result ++ (cartesian_product m (input.drop index)).map (current ++ ·)) := by
  intro fuel
  induction fuel with
  | zero => intro result index current h1 h2; omega
  | succ fuel ih =>
    intro result index current h1 h2
    unfold generate_substitutions_fuel
    by_cases hi : index = input.length
    · simp [hi, cartesian_product]
    · have hlt : index < input.length := by omega
      have hsub : substr input index 1 = .ok [input[index]] := by
        simp only [substr]
        rw [if_neg (by omega), List.drop_eq_getElem_cons hlt]
        rfl
      simp only [hi, if_false, hsub]
      rw [ih result (index + 1) _ (by omega) (by omega)]
      rw [List.drop_eq_getElem_cons hlt, List.getD_eq_getElem _ _ hlt]
      simp only [cartesian_product, choices]
      cases hf : m.find [input[index]] with
      | none => simp [List.flatMap_cons]
      | some variants =>
        simp only []
        rw [foldlM_append_ok _
          (fun s => (cartesian_product m (input.drop (index + 1))).map ((current ++ s) ++ ·))
          (fun acc s => ih acc (index + 1) (current ++ s) (by omega) (by omega))]
        simp [List.flatMap_cons, List.map_flatMap, Function.comp_def]

theorem letter_phase_eq (t : substitution_table) (s : Str) :
    letter_phase t s = .ok (cartesian_product t.table_letters s) := by
  unfold letter_phase generate_substitutions
  rw [generate_substitutions_fuel_letters _ _ _ [] 0 [] (by omega) (by omega)]
  simp

/-- A loop that runs the generator over each string of a list, threading
`result`, yields the concatenation of the separate runs. -/
theorem foldlM_concat_results (g : List Str → Str → Except Fault (List Str))
    (hg : ∀ acc s, g acc s = (g [] s).map (acc ++ ·)) :
    ∀ (vs : List Str), vs.foldlM g [] = concat_results (vs.map (g [])) := by
  intro vs
  induction vs with
  | nil => simp [concat_results, pure, Except.pure]
  | cons v vs ih =>
    rw [List.foldlM_cons, List.map_cons]
    cases hv : g [] v with
    | error e => simp [bind, Except.bind, concat_results]
    | ok x =>
      simp only [bind, Except.bind, concat_results]
      rw [foldlM_frame g hg vs x, ih]
      cases concat_results (vs.map (g [])) with
      | error e => simp [Except.map]
      | ok y => simp [Except.map]

theorem concat_results_singletons (f : Str → Except Fault (List Str))
    (hf : ∀ s, f s = .ok [s]) : ∀ l : List Str, concat_results (l.map f) = .ok l := by
  intro l
  induction l with
  | nil => simp [concat_results]
  | cons a l ih => simp [concat_results, hf, ih]

theorem isEmpty_eq_true_iff_nil (m : StrMap) : m.isEmpty = true ↔ m = [] := by
  cases m <;> simp

/-- The two phases of `substitute`, whichever of the two maps is empty. -/
theorem substitute_eq_phases (t : substitution_table) (w : Str) :
    substitute t w =
      match ligature_phase t w with
      | .error e => .error e
      | .ok ligs => concat_results (ligs.map (letter_phase t)) := by
  have hframe : ∀ acc s, generate_substitutions t.table_letters s acc 0 [] 1 =
      (generate_substitutions t.table_letters s [] 0 [] 1).map (acc ++ ·) := by
    intro acc s
    exact generate_substitutions_fuel_frame _ _ _ _ acc 0 []
  have hligs : (if t.table_ligatures.isEmpty then .ok [w]
         else generate_substitutions t.table_ligatures w [] 0 [] 2) = ligature_phase t w := by
    by_cases he : t.table_ligatures.isEmpty = true
    · rw [if_pos he]
      rw [isEmpty_eq_true_iff_nil] at he
      rw [ligature_phase, he, generate_substitutions_empty]
    · rw [if_neg he, ligature_phase]
  unfold substitute
  rw [hligs]
  cases ligature_phase t w with
  | error e => rfl
  | ok ligs =>
    simp only []
    by_cases he : t.table_letters.isEmpty = true
    · rw [if_pos he]
      rw [isEmpty_eq_true_iff_nil] at he
      rw [concat_results_singletons]
      intro s
      rw [letter_phase, he, generate_substitutions_empty]
    · rw [if_neg he]
      exact foldlM_concat_results _ hframe ligs

/-- C5: `substitute` is the ligature phase followed by the letter phase of each
of its outputs, concatenated in order, whichever of the two maps is empty; on
the table with ligatures "oe" ↦ "œ" and letters "o" ↦ "ó" the word "oe" yields
"oe", "óe" and "œ". -/
theorem substitute_compositional :
    (∀ (t : substitution_table) (w : Str),
      substitute t w =
        match ligature_phase t w with
        | .error e => .error e
        | .ok ligs => concat_results (ligs.map (letter_phase t))) ∧
    (∃ l, substitute ⟨[([0x6F], [[0xC3, 0xB3]])], [([0x6F, 0x65], [[0xC5, 0x93]])]⟩
          [0x6F, 0x65] = .ok l ∧
        [0x6F, 0x65] ∈ l ∧ [0xC5, 0x93] ∈ l ∧ [0xC3, 0xB3, 0x65] ∈ l) :=
  ⟨substitute_eq_phases, ⟨[[0x6F, 0x65], [0xC3, 0xB3, 0x65], [0xC5, 0x93]], rfl, by decide,
    by decide, by decide⟩⟩

theorem length_flatMap_const {α β : Type} (l : List α) (f : α → List β) (n : Nat)
    (h : ∀ a, (f a).length = n) : (l.flatMap f).length = l.length * n := by
  induction l with
  | nil => simp
  | cons a l ih => simp [List.flatMap_cons, h, ih, Nat.succ_mul, Nat.add_comm]

theorem cartesian_product_length (m : StrMap) (w : Str) :
    (cartesian_product m w).length =
      (w.map (fun c => 1 + ((m.find [c]).getD []).length)).prod := by
  induction w with
  | nil => simp [cartesian_product]
  | cons c w ih =>
    simp only [cartesian_product, List.map_cons, List.prod_cons]
    rw [length_flatMap_const _ _ (cartesian_product m w).length (by simp), ih]
    simp [choices, Nat.add_comm]

theorem mem_cartesian_product (m : StrMap) (w : Str) (x : Str) :
    x ∈ cartesian_product m w ↔
      ∃ pieces : List Str, List.Forall₂ (fun c p => p ∈ choices m c) w pieces ∧
        x = pieces.flatten := by
  induction w generalizing x with
  | nil =>
    simp only [cartesian_product, List.mem_singleton, List.forall₂_nil_left_iff]
    constructor
    · intro h; exact ⟨[], rfl, by simp [h]⟩
    · rintro ⟨pieces, rfl, h⟩; simpa using h
  | cons c w ih =>
    simp only [cartesian_product, List.mem_flatMap, List.mem_map]
    constructor
    · rintro ⟨p, hp, y, hy, rfl⟩
      obtain ⟨pieces, hpieces, rfl⟩ := (ih y).mp hy
      exact ⟨p :: pieces, List.Forall₂.cons hp hpieces, by simp⟩
    · rintro ⟨pieces, hpieces, rfl⟩
      cases hpieces with
      | cons hp hrest =>
        exact ⟨_, hp, _, (ih _).mpr ⟨_, hrest, rfl⟩, by simp⟩

/-- C4: with an empty ligature map, `substitute` returns, as a multiset, the
strings obtained by choosing independently at each position of the word the
byte itself or one of the variants listed for it; there are as many as the
product over the positions of one plus the number of listed variants. Only
keys of length 1 can be matched by the letter phase, so no restriction on the
keys of the letter map is needed. -/
theorem substitute_cartesian (t : substitution_table) (w : Str)
    (hlig : t.table_ligatures = []) :
    ∃ l, substitute t w = .ok l ∧
      (l : Multiset Str) = (cartesian_product t.table_letters w : Multiset Str) ∧
      (∀ x, x ∈ l ↔ ∃ pieces : List Str,
        List.Forall₂ (fun c p => p = [c] ∨ p ∈ (t.table_letters.find [c]).getD []) w pieces ∧
          x = pieces.flatten) ∧
      l.length = (w.map (fun c => 1 + ((t.table_letters.find [c]).getD []).length)).prod := by
  refine ⟨cartesian_product t.table_letters w, ?_, rfl, ?_, cartesian_product_length _ _⟩
  · rw [substitute_eq_phases, ligature_phase, hlig, generate_substitutions_empty]
    simp [concat_results, letter_phase_eq]
  · intro x
    rw [mem_cartesian_product]
    simp [choices]

/-- Witness of C4: the letter map "a" ↦ "á", "à" and the word "a" yield
exactly "a", "á" and "à". -/
theorem substitute_cartesian_witness :
    ∃ l, substitute ⟨[([0x61], [[0xC3, 0xA1], [0xC3, 0xA0]])], []⟩ [0x61] = .ok l ∧
      (l : Multiset Str) = ↑[[0x61], [0xC3, 0xA1], [0xC3, 0xA0]] ∧ l.length = 3 := by
  obtain ⟨l, h1, h2, _, h4⟩ :=
    substitute_cartesian ⟨[([0x61], [[0xC3, 0xA1], [0xC3, 0xA0]])], []⟩ [0x61] rfl
  exact ⟨l, h1, h2, h4⟩

/-! ## When the generator returns -/

theorem find_some_mem (m : StrMap) (key : Str) (vs : List Str) (h : m.find key = some vs) :
    (key, vs) ∈ m := by
  induction m with
  | nil => simp [StrMap.find] at h
  | cons kv rest ih =>
    obtain ⟨k, v⟩ := kv
    simp only [StrMap.find] at h
    by_cases hk : k = key
    · simp only [hk, if_true, Option.some.injEq] at h
      simp [hk, h]
    · simp only [hk, if_false] at h
      exact List.mem_cons_of_mem _ (ih h)

theorem foldlM_returns (g : List Str → Str → Except Fault (List Str))
    (hg : ∀ acc s, ∃ r, g acc s = .ok r) :
    ∀ (vs : List Str) (acc : List Str), ∃ r, vs.foldlM g acc = .ok r := by
  intro vs
  induction vs with
  | nil => intro acc; exact ⟨acc, rfl⟩
  | cons v vs ih =>
    intro acc
    obtain ⟨r, hr⟩ := hg acc v
    rw [List.foldlM_cons, hr]
    exact ih r

/-- When every key of the map has the length `len_of_key ≥ 1` it is searched
with, the generator returns from every index inside the input. -/
theorem generate_substitutions_fuel_returns (map : StrMap) (input : Str) (len_of_key : Nat)
    (hpos : 1 ≤ len_of_key) (hkeys : ∀ kv ∈ map, kv.1.length = len_of_key) :
    ∀ (fuel : Nat) (result : List Str) (index : Nat) (current : Str),
      index ≤ input.length → input.length + 1 ≤ fuel + index →
      ∃ r, generate_substitutions_fuel map input len_of_key fuel result index current = .ok r := by
  intro fuel
  induction fuel with
  | zero => intro result index current h1 h2; omega
  | succ fuel ih =>
    intro result index current h1 h2
    unfold generate_substitutions_fuel
    by_cases hi : index = input.length
    · simp [hi]
    · have hsub : substr input index len_of_key = .ok ((input.drop index).take len_of_key) := by
        simp [substr]; omega
      simp only [hi, if_false, hsub]
      obtain ⟨r1, hr1⟩ := ih result (index + 1) (current ++ [input.getD index 0])
        (by omega) (by omega)
      rw [hr1]
      cases hf : map.find ((input.drop index).take len_of_key) with
      | none => exact ⟨r1, rfl⟩
      | some variants =>
        have hlen := hkeys _ (find_some_mem _ _ _ hf)
        simp only [List.length_take, List.length_drop] at hlen
        exact foldlM_returns _
          (fun acc s => ih acc (index + len_of_key) (current ++ s) (by omega) (by omega))
          variants r1

/-- With ligature keys of length 2, `substitute` returns a list. -/
theorem substitute_returns (t : substitution_table) (w : Str)
    (hkeys : ∀ kv ∈ t.table_ligatures, kv.1.length = 2) :
    ∃ l, substitute t w = .ok l := by
  rw [substitute_eq_phases]
  obtain ⟨ligs, hl⟩ := generate_substitutions_fuel_returns t.table_ligatures w 2 (by omega)
    hkeys (w.length + 1 - 0) [] 0 [] (by omega) (by omega)
  have hl2 : ligature_phase t w = .ok ligs := hl
  rw [hl2]
  simp only []
  have : ∀ l : List Str, ∃ r, concat_results (l.map (letter_phase t)) = .ok r := by
    intro l
    induction l with
    | nil => exact ⟨[], rfl⟩
    | cons a l ih =>
      obtain ⟨r, hr⟩ := ih
      exact ⟨cartesian_product t.table_letters a ++ r, by
        simp [concat_results, letter_phase_eq] at hr ⊢
        simp [hr]⟩
  exact this ligs

/-! ## The worker threads -/

theorem perm_getElem_cons_eraseIdx (l : List Str) (k : Nat) (h : k < l.length) :
    l.Perm (l[k] :: l.eraseIdx k) := by
  rw [List.eraseIdx_eq_take_drop_succ]
  refine List.Perm.trans ?_ List.perm_middle
  rw [← List.drop_eq_getElem_cons h, List.take_append_drop]

/-- Whatever the schedule, workers that each append their argument when it
passes the test `p` leave behind a permutation of the arguments that pass. -/
theorem join_threads_perm (p : Str → Bool) :
    ∀ (n : Nat) (sched : List Nat) (args forms : List Str), args.length ≤ n →
      (join_threads (fun a forms => if p a then forms ++ [a] else forms) n sched args
        forms).Perm (forms ++ args.filter p) := by
  intro n
  induction n with
  | zero =>
    intro sched args forms h
    have : args = [] := List.length_eq_zero.mp (by omega)
    simp [join_threads, this]
  | succ n ih =>
    intro sched args forms h
    cases args with
    | nil => simp [join_threads]
    | cons a rest =>
      simp only [join_threads]
      have hk : sched.headD 0 % (rest.length + 1) < (a :: rest).length := by
        simp only [List.length_cons]
        exact Nat.mod_lt _ (by omega)
      generalize sched.headD 0 % (rest.length + 1) = k at hk
      rw [List.getD_eq_getElem _ _ hk]
      have hlen : ((a :: rest).eraseIdx k).length ≤ n := by
        rw [List.length_eraseIdx, if_pos hk]
        simp only [List.length_cons] at h ⊢
        omega
      refine (ih sched.tail _ _ hlen).trans ?_
      have hperm := (perm_getElem_cons_eraseIdx (a :: rest) k hk).filter p
      have hbody : (if p (a :: rest)[k] = true then forms ++ [(a :: rest)[k]] else forms) =
          forms ++ [(a :: rest)[k]].filter p := by
        by_cases hp : p (a :: rest)[k] = true <;> simp [hp]
      rw [hbody, List.append_assoc, ← List.filter_append]
      exact List.Perm.append_left forms hperm.symm

theorem run_threads_perm (p : Str → Bool) (sched : List Nat) (args : List Str) :
    (run_threads (fun a forms => if p a then forms ++ [a] else forms) sched args
      []).Perm (args.filter p) := by
  have := join_threads_perm p args.length sched args [] (Nat.le_refl _)
  simpa [run_threads] using this

/-- Workers whose bodies agree on every argument produce the same vector under
the same schedule. -/
theorem join_threads_congr (body1 body2 : Str → List Str → List Str) :
    ∀ (n : Nat) (sched : List Nat) (args forms : List Str),
      (∀ a ∈ args, body1 a = body2 a) →
      join_threads body1 n sched args forms = join_threads body2 n sched args forms := by
  intro n
  induction n with
  | zero => intro sched args forms h; simp [join_threads]
  | succ n ih =>
    intro sched args forms h
    cases args with
    | nil => simp [join_threads]
    | cons a rest =>
      simp only [join_threads]
      have hk : sched.headD 0 % (rest.length + 1) < (a :: rest).length := by
        simp only [List.length_cons]
        exact Nat.mod_lt _ (by omega)
      generalize sched.headD 0 % (rest.length + 1) = k at hk
      rw [List.getD_eq_getElem _ _ hk, h _ (List.getElem_mem hk)]
      exact ih _ _ _ (fun x hx => h x (List.mem_of_mem_eraseIdx hx))

/-! ## The orchestration policy -/

theorem count_filter_ite (p : Str → Bool) (l : List Str) (c : Str) :
    (l.filter p).count c = if p c = true then l.count c else 0 := by
  by_cases hp : p c = true
  · rw [if_pos hp, List.count_filter hp]
  · rw [if_neg hp]
    apply List.count_eq_zero_of_not_mem
    intro hmem
    exact hp (List.of_mem_filter hmem)

/-- C1: for a substitutable word of at most `SUBSTITUTION_MAX_LENGTH` bytes and
a selected table, whatever the schedule of the workers, `orthographic_forms`
returns a permutation of the candidates of `substitute` that `spell` accepts,
each as many times as it was generated; if `substitute` throws, so does the
call, which cannot happen when the ligature keys have length 2. -/
theorem orthographic_forms_exact (locale : Locale) (icu : Icu) (SUBSTITUTION_MAX_LENGTH : Nat) (self : Speller)
    (sched : List Nat) (t : substitution_table) (w : Str)
    (ht : self.sub_table = some t) (hsub : is_substitutable locale w = true)
    (hlen : w.length ≤ SUBSTITUTION_MAX_LENGTH) :
    (match substitute t w with
      | .error e =>
        Speller_orthographic_forms locale icu SUBSTITUTION_MAX_LENGTH self sched w = .error e
      | .ok candidates =>
        ∃ forms, Speller_orthographic_forms locale icu SUBSTITUTION_MAX_LENGTH self sched w = .ok forms ∧
          forms.Perm (candidates.filter self.hunspell.spell) ∧
          ∀ c, forms.count c = if self.hunspell.spell c = true then candidates.count c else 0) ∧
    ((∀ kv ∈ t.table_ligatures, kv.1.length = 2) → ∃ candidates, substitute t w = .ok candidates) := by
  refine ⟨?_, substitute_returns t w⟩
  unfold Speller_orthographic_forms
  simp only [hsub, if_true, ht, hlen]
  cases substitute t w with
  | error e => rfl
  | ok candidates =>
    simp only []
    have hperm := run_threads_perm self.hunspell.spell sched candidates
    refine ⟨_, rfl, hperm, fun c => ?_⟩
    exact (hperm.countP_eq _).trans (count_filter_ite _ _ c)

/-- Witness of C1: the word "uber" with a table listing "ü" for "u", a cap of
10 bytes and an oracle that accepts everything. -/
theorem orthographic_forms_exact_witness :
    ∃ forms, Speller_orthographic_forms c_locale icu_sample 10
        ⟨⟨fun _ => true, fun _ => []⟩, some ⟨[([0x75], [[0xC3, 0xBC]])], []⟩⟩ [1]
        [0x75, 0x62, 0x65, 0x72] = .ok forms ∧
      forms.Perm [[0x75, 0x62, 0x65, 0x72], [0xC3, 0xBC, 0x62, 0x65, 0x72]] := by
  have h := (orthographic_forms_exact c_locale icu_sample 10
    ⟨⟨fun _ => true, fun _ => []⟩, some ⟨[([0x75], [[0xC3, 0xBC]])], []⟩⟩ [1]
    ⟨[([0x75], [[0xC3, 0xBC]])], []⟩ [0x75, 0x62, 0x65, 0x72] rfl (by decide) (by decide)).1
  obtain ⟨forms, h1, h2, _⟩ := h
  exact ⟨forms, h1, h2⟩

/-- C3: for a word that is not substitutable the result is `[w]` when `spell`
accepts `w` and `[]` otherwise, whatever the table, the cap, the suggestions
and the schedule. -/
theorem orthographic_forms_literal (locale : Locale) (icu : Icu) (SUBSTITUTION_MAX_LENGTH : Nat) (self : Speller)
    (sched : List Nat) (w : Str) (hsub : is_substitutable locale w = false) :
    Speller_orthographic_forms locale icu SUBSTITUTION_MAX_LENGTH self sched w =
        .ok (if self.hunspell.spell w = true then [w] else []) ∧
    ∀ (icu2 : Icu) (max2 : Nat) (other : Speller) (sched2 : List Nat),
      other.hunspell.spell w = self.hunspell.spell w →
      Speller_orthographic_forms locale icu2 max2 other sched2 w =
        Speller_orthographic_forms locale icu SUBSTITUTION_MAX_LENGTH self sched w := by
  constructor
  · simp [Speller_orthographic_forms, hsub]
  · intro icu2 max2 other sched2 h
    simp [Speller_orthographic_forms, hsub, h]

/-- Witness of C3: the word "naïve " with its trailing space, accepted by the
oracle, comes back alone. -/
theorem orthographic_forms_literal_witness :
    is_substitutable c_locale [0x6E, 0x61, 0xC3, 0xAF, 0x76, 0x65, 0x20] = false ∧
    Speller_orthographic_forms c_locale icu_sample 10
        ⟨⟨fun s => s == [0x6E, 0x61, 0xC3, 0xAF, 0x76, 0x65, 0x20], fun _ => [[0x6E]]⟩,
          some ⟨[([0x61], [[0xC3, 0xA1]])], []⟩⟩ []
        [0x6E, 0x61, 0xC3, 0xAF, 0x76, 0x65, 0x20] =
      .ok [[0x6E, 0x61, 0xC3, 0xAF, 0x76, 0x65, 0x20]] :=
  ⟨by decide, (orthographic_forms_literal c_locale icu_sample 10
    ⟨⟨fun s => s == [0x6E, 0x61, 0xC3, 0xAF, 0x76, 0x65, 0x20], fun _ => [[0x6E]]⟩,
      some ⟨[([0x61], [[0xC3, 0xA1]])], []⟩⟩ []
    [0x6E, 0x61, 0xC3, 0xAF, 0x76, 0x65, 0x20] (by decide)).1⟩

/-- C10: with a selected table and a substitutable word, at exactly
`SUBSTITUTION_MAX_LENGTH` bytes two oracles that agree with `spell` on the
generated candidates give the same result whatever they suggest, and at one
byte more two oracles that suggest the same for the word give the same result
whatever they spell. The cap is compared with the byte length `word.size()`. -/
theorem length_cap_boundary (locale : Locale) (icu : Icu) (SUBSTITUTION_MAX_LENGTH : Nat)
    (t : substitution_table) (h1 h2 : Hunspell) (sched : List Nat) (w : Str)
    (hsub : is_substitutable locale w = true) :
    (w.length = SUBSTITUTION_MAX_LENGTH →
      (∀ candidates, substitute t w = .ok candidates →
        ∀ c ∈ candidates, h1.spell c = h2.spell c) →
      Speller_orthographic_forms locale icu SUBSTITUTION_MAX_LENGTH ⟨h1, some t⟩ sched w =
        Speller_orthographic_forms locale icu SUBSTITUTION_MAX_LENGTH ⟨h2, some t⟩ sched w) ∧
    (w.length = SUBSTITUTION_MAX_LENGTH + 1 →
      h1.suggest w = h2.suggest w →
      Speller_orthographic_forms locale icu SUBSTITUTION_MAX_LENGTH ⟨h1, some t⟩ sched w =
        Speller_orthographic_forms locale icu SUBSTITUTION_MAX_LENGTH ⟨h2, some t⟩ sched w) := by
  constructor
  · intro hlen hspell
    have hle : w.length ≤ SUBSTITUTION_MAX_LENGTH := by omega
    unfold Speller_orthographic_forms
    simp only [hsub, if_true, hle]
    cases hs : substitute t w with
    | error e => rfl
    | ok candidates =>
      simp only [run_threads]
      congr 1
      apply join_threads_congr
      intro a ha
      rw [hspell candidates hs a ha]
  · intro hlen hsug
    have hle : ¬ w.length ≤ SUBSTITUTION_MAX_LENGTH := by omega
    unfold Speller_orthographic_forms
    simp only [hsub, if_true, hle, if_false, hsug]

/-- Witness of C10: the word "uber", of 4 bytes, with the cap at 4 and then
at 3. -/
theorem length_cap_boundary_witness :
    Speller_orthographic_forms c_locale icu_sample 4
        ⟨⟨fun _ => true, fun _ => []⟩, some ⟨[([0x75], [[0xC3, 0xBC]])], []⟩⟩ [1]
        [0x75, 0x62, 0x65, 0x72] =
      Speller_orthographic_forms c_locale icu_sample 4
        ⟨⟨fun _ => true, fun _ => [[0xC3, 0xBC, 0x62, 0x65, 0x72]]⟩,
          some ⟨[([0x75], [[0xC3, 0xBC]])], []⟩⟩ [1]
        [0x75, 0x62, 0x65, 0x72] ∧
    Speller_orthographic_forms c_locale icu_sample 3
        ⟨⟨fun _ => true, fun _ => [[0xC3, 0xBC, 0x62, 0x65, 0x72]]⟩,
          some ⟨[([0x75], [[0xC3, 0xBC]])], []⟩⟩ [1]
        [0x75, 0x62, 0x65, 0x72] =
      Speller_orthographic_forms c_locale icu_sample 3
        ⟨⟨fun _ => false, fun _ => [[0xC3, 0xBC, 0x62, 0x65, 0x72]]⟩,
          some ⟨[([0x75], [[0xC3, 0xBC]])], []⟩⟩ [1]
        [0x75, 0x62, 0x65, 0x72] :=
  ⟨(length_cap_boundary c_locale icu_sample 4 ⟨[([0x75], [[0xC3, 0xBC]])], []⟩
      ⟨fun _ => true, fun _ => []⟩ ⟨fun _ => true, fun _ => [[0xC3, 0xBC, 0x62, 0x65, 0x72]]⟩
      [1] [0x75, 0x62, 0x65, 0x72] (by decide)).1 (by decide) (fun _ _ _ _ => rfl),
   (length_cap_boundary c_locale icu_sample 3 ⟨[([0x75], [[0xC3, 0xBC]])], []⟩
      ⟨fun _ => true, fun _ => [[0xC3, 0xBC, 0x62, 0x65, 0x72]]⟩
      ⟨fun _ => false, fun _ => [[0xC3, 0xBC, 0x62, 0x65, 0x72]]⟩
      [1] [0x75, 0x62, 0x65, 0x72] (by decide)).2 (by decide) rfl⟩

/-- C2: for a substitutable word with no table selected or longer than
`SUBSTITUTION_MAX_LENGTH`, whatever the schedule of the workers,
`orthographic_forms` returns a permutation of the suggestions for the word
that have no banned character and the same canonical key as the word; a string
is returned exactly when it is such a suggestion. -/
theorem orthographic_forms_fallback (locale : Locale) (icu : Icu) (SUBSTITUTION_MAX_LENGTH : Nat)
    (self : Speller) (sched : List Nat) (w : Str) (hsub : is_substitutable locale w = true)
    (hfallback : self.sub_table = none ∨ SUBSTITUTION_MAX_LENGTH < w.length) :
    ∃ forms, Speller_orthographic_forms locale icu SUBSTITUTION_MAX_LENGTH self sched w = .ok forms ∧
      forms.Perm ((self.hunspell.suggest w).filter
        (fun s => is_without_banned_chars s && simplify icu s == simplify icu w)) ∧
      ∀ s, s ∈ forms ↔
        (s ∈ self.hunspell.suggest w ∧ is_without_banned_chars s = true ∧
          simplify icu s = simplify icu w) := by
  have hperm := run_threads_perm
    (fun s => is_without_banned_chars s && simplify icu s == simplify icu w) sched
    (self.hunspell.suggest w)
  have hres : Speller_orthographic_forms locale icu SUBSTITUTION_MAX_LENGTH self sched w =
      .ok (run_threads
        (fun s forms =>
          if (is_without_banned_chars s && simplify icu s == simplify icu w) = true
          then forms ++ [s] else forms)
        sched (self.hunspell.suggest w) []) := by
    unfold Speller_orthographic_forms
    simp only [hsub, if_true]
    cases hst : self.sub_table with
    | none => rfl
    | some t =>
      have hlt : SUBSTITUTION_MAX_LENGTH < w.length := by
        cases hfallback with
        | inl h => rw [hst] at h; cases h
        | inr h => exact h
      simp only [if_neg (Nat.not_le.mpr hlt)]
  refine ⟨_, hres, hperm, fun s => ?_⟩
  rw [hperm.mem_iff, List.mem_filter]
  simp

/-- Witness of C2: no table, the word "resume", the suggestions "résumé" and
"resume's": exactly "résumé" is returned. -/
theorem orthographic_forms_fallback_witness :
    Speller_orthographic_forms c_locale icu_sample 10
        ⟨⟨fun _ => false, fun _ => [[0x72, 0xC3, 0xA9, 0x73, 0x75, 0x6D, 0xC3, 0xA9],
            [0x72, 0x65, 0x73, 0x75, 0x6D, 0x65, 0x27, 0x73]]⟩, none⟩ [1]
        [0x72, 0x65, 0x73, 0x75, 0x6D, 0x65] =
      .ok [[0x72, 0xC3, 0xA9, 0x73, 0x75, 0x6D, 0xC3, 0xA9]] := by
  obtain ⟨forms, h1, h2, _⟩ := orthographic_forms_fallback c_locale icu_sample 10
    ⟨⟨fun _ => false, fun _ => [[0x72, 0xC3, 0xA9, 0x73, 0x75, 0x6D, 0xC3, 0xA9],
        [0x72, 0x65, 0x73, 0x75, 0x6D, 0x65, 0x27, 0x73]]⟩, none⟩ [1]
    [0x72, 0x65, 0x73, 0x75, 0x6D, 0x65] (by decide) (Or.inl rfl)
  have hfilter : (([[0x72, 0xC3, 0xA9, 0x73, 0x75, 0x6D, 0xC3, 0xA9],
        [0x72, 0x65, 0x73, 0x75, 0x6D, 0x65, 0x27, 0x73]] : List Str).filter
      (fun s => is_without_banned_chars s &&
        simplify icu_sample s == simplify icu_sample [0x72, 0x65, 0x73, 0x75, 0x6D, 0x65])) =
      [[0x72, 0xC3, 0xA9, 0x73, 0x75, 0x6D, 0xC3, 0xA9]] := by decide
  rw [h1]
  rw [hfilter] at h2
  rw [List.perm_singleton.mp h2]

/-! ## The canonical key on a supplementary code point

The loop of `simplify` steps through the UTF-16 code units of the normalised
string but reads a whole code point at each step; `char32At` returns the
supplementary code point at the index of its lead surrogate and again at the
index of its trail surrogate. -/

theorem simplify_filter_pair (icu : Icu)
    (hban : icu.banned_set_contains 0x20BB7 = false) :
    simplify_filter icu [0xD842, 0xDFB7] = [0xD842, 0xDFB7, 0xD842, 0xDFB7] := by
  have hr : List.range ([0xD842, 0xDFB7] : UnicodeString).length = [0, 1] := rfl
  have c0 : char32At [0xD842, 0xDFB7] 0 = 0x20BB7 := by decide
  have c1 : char32At [0xD842, 0xDFB7] 1 = 0x20BB7 := by decide
  have a0 : append [] 0x20BB7 = [0xD842, 0xDFB7] := by decide
  have a1 : append [0xD842, 0xDFB7] 0x20BB7 = [0xD842, 0xDFB7, 0xD842, 0xDFB7] := by decide
  simp only [simplify_filter, hr, List.foldl_cons, List.foldl_nil, c0, c1, hban,
    Bool.not_false, if_true, a0, a1]

theorem simplify_filter_two_pairs (icu : Icu)
    (hban : icu.banned_set_contains 0x20BB7 = false) :
    simplify_filter icu [0xD842, 0xDFB7, 0xD842, 0xDFB7] =
      [0xD842, 0xDFB7, 0xD842, 0xDFB7, 0xD842, 0xDFB7, 0xD842, 0xDFB7] := by
  have hr : List.range ([0xD842, 0xDFB7, 0xD842, 0xDFB7] : UnicodeString).length =
      [0, 1, 2, 3] := rfl
  have c0 : char32At [0xD842, 0xDFB7, 0xD842, 0xDFB7] 0 = 0x20BB7 := by decide
  have c1 : char32At [0xD842, 0xDFB7, 0xD842, 0xDFB7] 1 = 0x20BB7 := by decide
  have c2 : char32At [0xD842, 0xDFB7, 0xD842, 0xDFB7] 2 = 0x20BB7 := by decide
  have c3 : char32At [0xD842, 0xDFB7, 0xD842, 0xDFB7] 3 = 0x20BB7 := by decide
  have a0 : append [] 0x20BB7 = [0xD842, 0xDFB7] := by decide
  have a1 : append [0xD842, 0xDFB7] 0x20BB7 = [0xD842, 0xDFB7, 0xD842, 0xDFB7] := by decide
  have a2 : append [0xD842, 0xDFB7, 0xD842, 0xDFB7] 0x20BB7 =
      [0xD842, 0xDFB7, 0xD842, 0xDFB7, 0xD842, 0xDFB7] := by decide
  have a3 : append [0xD842, 0xDFB7, 0xD842, 0xDFB7, 0xD842, 0xDFB7] 0x20BB7 =
      [0xD842, 0xDFB7, 0xD842, 0xDFB7, 0xD842, 0xDFB7, 0xD842, 0xDFB7] := by decide
  simp only [simplify_filter, hr, List.foldl_cons, List.foldl_nil, c0, c1, c2, c3, hban,
    Bool.not_false, if_true, a0, a1, a2, a3]

/-- C6: on the one-character string U+20BB7 (UTF-8 `F0 A0 AE B7`, UTF-16
`D842 DFB7`, a letter that NFKD leaves alone) `simplify` returns the character
twice, where the three-step definition keeps it once. -/
theorem simplify_duplicates_supplementary (icu : Icu)
    (hfrom : icu.fromUTF8 [0xF0, 0xA0, 0xAE, 0xB7] = [0xD842, 0xDFB7])
    (hnorm : icu.normalize [0xD842, 0xDFB7] = [0xD842, 0xDFB7])
    (hban : icu.banned_set_contains 0x20BB7 = false)
    (hto1 : icu.toUTF8String [0xD842, 0xDFB7] = [0xF0, 0xA0, 0xAE, 0xB7])
    (hto2 : icu.toUTF8String [0xD842, 0xDFB7, 0xD842, 0xDFB7] =
      [0xF0, 0xA0, 0xAE, 0xB7, 0xF0, 0xA0, 0xAE, 0xB7]) :
    simplify icu [0xF0, 0xA0, 0xAE, 0xB7] = [0xF0, 0xA0, 0xAE, 0xB7, 0xF0, 0xA0, 0xAE, 0xB7] ∧
    simplify_reference icu [0xF0, 0xA0, 0xAE, 0xB7] = [0xF0, 0xA0, 0xAE, 0xB7] ∧
    simplify icu [0xF0, 0xA0, 0xAE, 0xB7] ≠ simplify_reference icu [0xF0, 0xA0, 0xAE, 0xB7] := by
  have h1 : simplify icu [0xF0, 0xA0, 0xAE, 0xB7] =
      [0xF0, 0xA0, 0xAE, 0xB7, 0xF0, 0xA0, 0xAE, 0xB7] := by
    have hfold : simplify_fold [0xD842, 0xDFB7, 0xD842, 0xDFB7] =
        [0xD842, 0xDFB7, 0xD842, 0xDFB7] := by decide
    simp only [simplify, hfrom, hnorm, simplify_filter_pair icu hban, hfold, hto2]
  have h2 : simplify_reference icu [0xF0, 0xA0, 0xAE, 0xB7] = [0xF0, 0xA0, 0xAE, 0xB7] := by
    have hcp : code_points [0xD842, 0xDFB7] = [0x20BB7] := by decide
    have henc : (([0x20BB7] : List Nat).flatMap fold_ligature).foldl append [] =
        [0xD842, 0xDFB7] := by decide
    simp only [simplify_reference, hfrom, hnorm, hcp, List.filter_cons, List.filter_nil, hban,
      Bool.not_false, if_true, henc, hto1]
  refine ⟨h1, h2, ?_⟩
  rw [h1, h2]
  decide

/-- Witness of C6, on the sample instance of the ICU interface. -/
theorem simplify_duplicates_supplementary_witness :
    simplify icu_sample [0xF0, 0xA0, 0xAE, 0xB7] =
      [0xF0, 0xA0, 0xAE, 0xB7, 0xF0, 0xA0, 0xAE, 0xB7] ∧
    simplify_reference icu_sample [0xF0, 0xA0, 0xAE, 0xB7] = [0xF0, 0xA0, 0xAE, 0xB7] :=
  have h := simplify_duplicates_supplementary icu_sample (by decide) (by decide) (by decide)
    (by decide) (by decide)
  ⟨h.1, h.2.1⟩

/-- C7: on the one-character string U+20BB7 `simplify` is not idempotent: the
first application returns the character twice, the second four times. -/
theorem simplify_not_idempotent (icu : Icu)
    (hfrom : icu.fromUTF8 [0xF0, 0xA0, 0xAE, 0xB7] = [0xD842, 0xDFB7])
    (hfrom2 : icu.fromUTF8 [0xF0, 0xA0, 0xAE, 0xB7, 0xF0, 0xA0, 0xAE, 0xB7] =
      [0xD842, 0xDFB7, 0xD842, 0xDFB7])
    (hnorm : icu.normalize [0xD842, 0xDFB7] = [0xD842, 0xDFB7])
    (hnorm2 : icu.normalize [0xD842, 0xDFB7, 0xD842, 0xDFB7] = [0xD842, 0xDFB7, 0xD842, 0xDFB7])
    (hban : icu.banned_set_contains 0x20BB7 = false)
    (hto2 : icu.toUTF8String [0xD842, 0xDFB7, 0xD842, 0xDFB7] =
      [0xF0, 0xA0, 0xAE, 0xB7, 0xF0, 0xA0, 0xAE, 0xB7])
    (hto4 : icu.toUTF8String [0xD842, 0xDFB7, 0xD842, 0xDFB7, 0xD842, 0xDFB7, 0xD842, 0xDFB7] =
      [0xF0, 0xA0, 0xAE, 0xB7, 0xF0, 0xA0, 0xAE, 0xB7, 0xF0, 0xA0, 0xAE, 0xB7,
        0xF0, 0xA0, 0xAE, 0xB7]) :
    simplify icu (simplify icu [0xF0, 0xA0, 0xAE, 0xB7]) =
      [0xF0, 0xA0, 0xAE, 0xB7, 0xF0, 0xA0, 0xAE, 0xB7, 0xF0, 0xA0, 0xAE, 0xB7,
        0xF0, 0xA0, 0xAE, 0xB7] ∧
    simplify icu (simplify icu [0xF0, 0xA0, 0xAE, 0xB7]) ≠ simplify icu [0xF0, 0xA0, 0xAE, 0xB7] := by
  have hfold2 : simplify_fold [0xD842, 0xDFB7, 0xD842, 0xDFB7] =
      [0xD842, 0xDFB7, 0xD842, 0xDFB7] := by decide
  have hfold4 : simplify_fold [0xD842, 0xDFB7, 0xD842, 0xDFB7, 0xD842, 0xDFB7, 0xD842, 0xDFB7] =
      [0xD842, 0xDFB7, 0xD842, 0xDFB7, 0xD842, 0xDFB7, 0xD842, 0xDFB7] := by decide
  have h1 : simplify icu [0xF0, 0xA0, 0xAE, 0xB7] =
      [0xF0, 0xA0, 0xAE, 0xB7, 0xF0, 0xA0, 0xAE, 0xB7] := by
    simp only [simplify, hfrom, hnorm, simplify_filter_pair icu hban, hfold2, hto2]
  have h2 : simplify icu [0xF0, 0xA0, 0xAE, 0xB7, 0xF0, 0xA0, 0xAE, 0xB7] =
      [0xF0, 0xA0, 0xAE, 0xB7, 0xF0, 0xA0, 0xAE, 0xB7, 0xF0, 0xA0, 0xAE, 0xB7,
        0xF0, 0xA0, 0xAE, 0xB7] := by
    simp only [simplify, hfrom2, hnorm2, simplify_filter_two_pairs icu hban, hfold4, hto4]
  rw [h1, h2]
  exact ⟨rfl, by decide⟩

/-- Witness of C7, on the sample instance of the ICU interface. -/
theorem simplify_not_idempotent_witness :
    simplify icu_sample (simplify icu_sample [0xF0, 0xA0, 0xAE, 0xB7]) ≠
      simplify icu_sample [0xF0, 0xA0, 0xAE, 0xB7] :=
  (simplify_not_idempotent icu_sample (by decide) (by decide) (by decide) (by decide)
    (by decide) (by decide) (by decide)).2

/-! ## The canonical key inside the Basic Multilingual Plane

When the normalised string has no surrogate code unit, every code unit is a
code point, the loop of `simplify` reads each of them once and `simplify`
is the three-step definition. -/

theorem char32At_of_bmp (us : UnicodeString) (i : Nat) (hi : i < us.length)
    (h : is_bmp_scalar us[i]) : char32At us i = us[i] := by
  unfold is_bmp_scalar at h
  have hl : U16_IS_LEAD us[i] = false := by
    simp only [U16_IS_LEAD, decide_eq_false_iff_not]; omega
  have ht : U16_IS_TRAIL us[i] = false := by
    simp only [U16_IS_TRAIL, decide_eq_false_iff_not]; omega
  simp only [char32At, hi, if_true, List.getD_eq_getElem _ _ hi, hl, ht, Bool.false_eq_true,
    if_false]

theorem append_of_le (r : UnicodeString) (c : Nat) (h : c ≤ 0xFFFF) : append r c = r ++ [c] := by
  simp [append, h]

theorem foldl_append_of_le (l : List Nat) (h : ∀ c ∈ l, c ≤ 0xFFFF) :
    ∀ r : UnicodeString, l.foldl append r = r ++ l := by
  induction l with
  | nil => intro r; simp
  | cons c l ih =>
    intro r
    rw [List.foldl_cons, append_of_le r c (h c (List.mem_cons_self _ _)),
      ih (fun x hx => h x (List.mem_cons_of_mem _ hx))]
    simp

theorem simplify_filter_take (icu : Icu) (us : UnicodeString)
    (h : ∀ u ∈ us, is_bmp_scalar u) :
    ∀ n, n ≤ us.length →
      (List.range n).foldl
        (fun result i =>
          let c := char32At us i
          if !icu.banned_set_contains c then append result c else result) [] =
      (us.take n).filter (fun c => !icu.banned_set_contains c) := by
  intro n
  induction n with
  | zero => intro _; simp
  | succ n ih =>
    intro hn
    have hlt : n < us.length := by omega
    have hb := h us[n] (List.getElem_mem hlt)
    have hle : us[n] ≤ 0xFFFF := by unfold is_bmp_scalar at hb; omega
    rw [List.range_succ, List.foldl_append, ih (by omega)]
    simp only [List.foldl_cons, List.foldl_nil, char32At_of_bmp us n hlt hb]
    rw [List.take_succ, List.getElem?_eq_getElem hlt, List.filter_append]
    by_cases hban : icu.banned_set_contains us[n] = true
    · simp [hban]
    · simp [hban, append_of_le _ _ hle]

theorem simplify_filter_of_bmp (icu : Icu) (us : UnicodeString)
    (h : ∀ u ∈ us, is_bmp_scalar u) :
    simplify_filter icu us = us.filter (fun c => !icu.banned_set_contains c) := by
  have := simplify_filter_take icu us h us.length (Nat.le_refl _)
  rw [List.take_length] at this
  exact this

theorem code_points_of_bmp : ∀ (us : UnicodeString), (∀ u ∈ us, is_bmp_scalar u) →
    code_points us = us
  | [], _ => rfl
  | [_], _ => rfl
  | u :: v :: rest, h => by
    have hu := h u (List.mem_cons_self _ _)
    have hl : U16_IS_LEAD u = false := by
      unfold is_bmp_scalar at hu
      simp only [U16_IS_LEAD, decide_eq_false_iff_not]; omega
    have ih := code_points_of_bmp (v :: rest) (fun x hx => h x (List.mem_cons_of_mem _ hx))
    simp only [code_points, hl, Bool.false_and, Bool.false_eq_true, if_false, ih]

/-- A single code unit is replaced wherever it stands. -/
theorem findAndReplace_unit (o : Nat) (newText : UnicodeString) :
    ∀ s : UnicodeString,
      findAndReplace s [o] newText = s.flatMap (fun c => if c = o then newText else [c]) := by
  intro s
  simp only [findAndReplace, List.cons_ne_nil, if_false]
  induction s with
  | nil => simp [findAndReplace_scan]
  | cons c rest ih =>
    by_cases hc : c = o
    · subst hc
      simp [findAndReplace_scan, List.isPrefixOf, ih, List.flatMap_cons]
    · have hne : ¬ o = c := fun h => hc h.symm
      simp [findAndReplace_scan, List.isPrefixOf, ih, List.flatMap_cons, hc, hne]

theorem flatMap_flatMap_units (l : List Nat) (f g : Nat → List Nat) :
    (l.flatMap f).flatMap g = l.flatMap (fun c => (f c).flatMap g) := by
  induction l with
  | nil => simp
  | cons a l ih => simp [List.flatMap_cons, List.flatMap_append, ih]

/-- The six replacements in a row replace each ligature by its digraph. -/
theorem simplify_fold_eq (r : UnicodeString) : simplify_fold r = r.flatMap fold_ligature := by
  simp only [simplify_fold, LIGATURE_SS, LIGATURE_ss, LIGATURE_AE, LIGATURE_ae, LIGATURE_OE,
    LIGATURE_oe, PLAIN_SS, PLAIN_ss, PLAIN_AE, PLAIN_ae, PLAIN_OE, PLAIN_oe,
    findAndReplace_unit, flatMap_flatMap_units]
  congr 1
  funext c
  unfold fold_ligature
  split_ifs <;> simp_all [List.flatMap_cons]

theorem fold_ligature_le (c : Nat) (h : c ≤ 0xFFFF) : ∀ x ∈ fold_ligature c, x ≤ 0xFFFF := by
  intro x hx
  unfold fold_ligature at hx
  split_ifs at hx <;> simp at hx <;> omega

/-- On an input whose normalised form has no surrogate code unit, `simplify`
is the three-step definition. -/
theorem simplify_eq_reference_of_bmp (icu : Icu) (s : Str)
    (h : ∀ u ∈ icu.normalize (icu.fromUTF8 s), is_bmp_scalar u) :
    simplify icu s = simplify_reference icu s := by
  have hle : ∀ x ∈ ((icu.normalize (icu.fromUTF8 s)).filter
      (fun c => !icu.banned_set_contains c)).flatMap fold_ligature, x ≤ 0xFFFF := by
    intro x hx
    obtain ⟨c, hc, hxc⟩ := List.mem_flatMap.mp hx
    have hb := h c (List.mem_of_mem_filter hc)
    exact fold_ligature_le c (by unfold is_bmp_scalar at hb; omega) x hxc
  simp only [simplify, simplify_reference, simplify_filter_of_bmp icu _ h, simplify_fold_eq,
    code_points_of_bmp _ h]
  rw [foldl_append_of_le _ hle []]
  simp

/-! ## The catalog -/

/-- C13: in every entry of `SUBSTITUTION_TABLES` the keys of the letter map
have length 1 and the keys of the ligature map have length 2. -/
theorem catalog_key_lengths :
    ∀ entry ∈ SUBSTITUTION_TABLES,
      (∀ kv ∈ entry.2.table_letters, kv.1.length = 1) ∧
      (∀ kv ∈ entry.2.table_ligatures, kv.1.length = 2) := by
  decide

/-- Witness of C13: the entry of the language "de". -/
theorem catalog_key_lengths_witness :
    ([0x64, 0x65], table_de) ∈ SUBSTITUTION_TABLES ∧
    (∀ kv ∈ table_de.table_letters, kv.1.length = 1) ∧
    (∀ kv ∈ table_de.table_ligatures, kv.1.length = 2) :=
  ⟨by simp [SUBSTITUTION_TABLES],
    catalog_key_lengths ([0x64, 0x65], table_de) (by simp [SUBSTITUTION_TABLES])⟩

/-- C14: the language code "de" selects the German table, for which
`substitute("uber")` is "uber" followed by "über"; so with a cap of at least 4
bytes, in a locale where "uber" passes the guard (its four letters are
printable and not white space, as in every locale), the result of
`orthographic_forms("uber")` contains "über" exactly when `spell` accepts it,
"uber" exactly when `spell` accepts it, and nothing else. -/
theorem german_uber (locale : Locale) (icu : Icu) (SUBSTITUTION_MAX_LENGTH : Nat)
    (hunspell : Hunspell) (sched : List Nat) (hmax : 4 ≤ SUBSTITUTION_MAX_LENGTH)
    (hsub : is_substitutable locale [0x75, 0x62, 0x65, 0x72] = true) :
    Speller_init_sub_table [0x64, 0x65] = some table_de ∧
    substitute table_de [0x75, 0x62, 0x65, 0x72] =
      .ok [[0x75, 0x62, 0x65, 0x72], [0xC3, 0xBC, 0x62, 0x65, 0x72]] ∧
    ∃ forms,
      Speller_orthographic_forms locale icu SUBSTITUTION_MAX_LENGTH
        ⟨hunspell, Speller_init_sub_table [0x64, 0x65]⟩ sched [0x75, 0x62, 0x65, 0x72] =
          .ok forms ∧
      ([0xC3, 0xBC, 0x62, 0x65, 0x72] ∈ forms ↔
        hunspell.spell [0xC3, 0xBC, 0x62, 0x65, 0x72] = true) ∧
      ([0x75, 0x62, 0x65, 0x72] ∈ forms ↔ hunspell.spell [0x75, 0x62, 0x65, 0x72] = true) ∧
      ∀ x ∈ forms, x = [0x75, 0x62, 0x65, 0x72] ∨ x = [0xC3, 0xBC, 0x62, 0x65, 0x72] := by
  have hsel : Speller_init_sub_table [0x64, 0x65] = some table_de := rfl
  have hcand : substitute table_de [0x75, 0x62, 0x65, 0x72] =
      .ok [[0x75, 0x62, 0x65, 0x72], [0xC3, 0xBC, 0x62, 0x65, 0x72]] := rfl
  have hlen : ([0x75, 0x62, 0x65, 0x72] : Str).length ≤ SUBSTITUTION_MAX_LENGTH := hmax
  have hperm := run_threads_perm hunspell.spell sched
    [[0x75, 0x62, 0x65, 0x72], [0xC3, 0xBC, 0x62, 0x65, 0x72]]
  refine ⟨hsel, hcand,
    run_threads (fun form forms => if hunspell.spell form = true then forms ++ [form] else forms)
      sched [[0x75, 0x62, 0x65, 0x72], [0xC3, 0xBC, 0x62, 0x65, 0x72]] [], ?_, ?_, ?_, ?_⟩
  · unfold Speller_orthographic_forms
    simp only [hsub, if_true, hsel, hlen, hcand]
  · rw [hperm.mem_iff, List.mem_filter]
    simp
  · rw [hperm.mem_iff, List.mem_filter]
    simp
  · intro x hx
    have hx2 := List.mem_of_mem_filter (hperm.mem_iff.mp hx)
    simpa using hx2

/-- Witness of C14: the "C" locale, a cap of 4 bytes and an oracle that accepts
only "über". -/
theorem german_uber_witness :
    ∃ forms,
      Speller_orthographic_forms c_locale icu_sample 4
        ⟨⟨fun s => s == [0xC3, 0xBC, 0x62, 0x65, 0x72], fun _ => []⟩,
          Speller_init_sub_table [0x64, 0x65]⟩ [1] [0x75, 0x62, 0x65, 0x72] = .ok forms ∧
      [0xC3, 0xBC, 0x62, 0x65, 0x72] ∈ forms ∧ [0x75, 0x62, 0x65, 0x72] ∉ forms := by
  obtain ⟨_, _, forms, h1, h2, h3, _⟩ := german_uber c_locale icu_sample 4
    ⟨fun s => s == [0xC3, 0xBC, 0x62, 0x65, 0x72], fun _ => []⟩ [1] (Nat.le_refl 4) (by decide)
  exact ⟨forms, h1, h2.mpr (by decide), fun h => absurd (h3.mp h) (by decide)⟩

/-! ## The empty-map shortcuts -/

theorem substitute_without_shortcuts_eq_phases (t : substitution_table) (w : Str) :
    substitute_without_shortcuts t w =
      match ligature_phase t w with
      | .error e => .error e
      | .ok ligs => concat_results (ligs.map (letter_phase t)) := by
  have hframe : ∀ acc s, generate_substitutions t.table_letters s acc 0 [] 1 =
      (generate_substitutions t.table_letters s [] 0 [] 1).map (acc ++ ·) := by
    intro acc s
    exact generate_substitutions_fuel_frame _ _ _ _ acc 0 []
  unfold substitute_without_shortcuts ligature_phase
  cases generate_substitutions t.table_ligatures w [] 0 [] 2 with
  | error e => rfl
  | ok ligs => exact foldlM_concat_results _ hframe ligs

/-- C18: run with an empty map, the generator returns the one-element list
`[w]`, whatever the key length (1 and 2 in particular); `substitute` without
its two shortcuts for an empty map returns what `substitute` returns; a table
with both maps empty returns `[w]`. -/
theorem empty_map_shortcuts :
    (∀ (w : Str) (len_of_key : Nat), generate_substitutions [] w [] 0 [] len_of_key = .ok [w]) ∧
    (∀ (t : substitution_table) (w : Str),
      substitute_without_shortcuts t w = substitute t w) ∧
    (∀ w : Str, substitute ⟨[], []⟩ w = .ok [w]) := by
  refine ⟨generate_substitutions_empty, ?_, ?_⟩
  · intro t w
    rw [substitute_without_shortcuts_eq_phases, substitute_eq_phases]
  · intro w
    simp [substitute]

/-! ## The ligature phase -/

theorem find_key_length (m : StrMap) (n : Nat) (hkeys : ∀ kv ∈ m, kv.1.length = n)
    (key : Str) (vs : List Str) (h : m.find key = some vs) : key.length = n :=
  hkeys _ (find_some_mem m key vs h)

theorem flatMap_range_getD (vs : List Str) (f : Str → List Str) :
    vs.flatMap f = (List.range vs.length).flatMap (fun j => f (vs.getD j [])) := by
  have h : vs = (List.range vs.length).map (fun j => vs.getD j []) := by
    apply List.ext_getElem
    · simp
    · intro n h1 h2
      simp [List.getElem?_eq_getElem h1]
  conv_lhs => rw [h]
  rw [List.flatMap_map]

/-- The ligature phase (keys of length 2) emits, after `result`, the output of
every reading of the rest of the input, each prefixed by `current`. -/
theorem generate_substitutions_fuel_ligatures (m : StrMap) (input : Str)
    (hkeys : ∀ kv ∈ m, kv.1.length = 2) :
    ∀ (fuel : Nat) (result : List Str) (index : Nat) (current : Str),
      index ≤ input.length → input.length + 1 ≤ fuel + index →
      generate_substitutions_fuel m input 2 fuel result index current =
        .ok (result ++ (segmentations m (input.drop index)).map
          (fun segs => current ++ reading_output m segs)) := by
  intro fuel
  induction fuel with
  | zero => intro result index current h1 h2; omega
  | succ fuel ih =>
    intro result index current h1 h2
    unfold generate_substitutions_fuel
    by_cases hi : index = input.length
    · simp [hi, segmentations, reading_output]
    · have hlt : index < input.length := by omega
      have hsub : substr input index 2 = .ok ((input.drop index).take 2) := by
        simp only [substr]
        rw [if_neg (by omega)]
      simp only [hi, if_false, hsub]
      rw [ih result (index + 1) _ (by omega) (by omega)]
      rw [List.drop_eq_getElem_cons hlt, List.getD_eq_getElem _ _ hlt]
      cases hd : input.drop (index + 1) with
      | nil =>
        have hnone : m.find [input[index]] = none := by
          cases hf : m.find [input[index]] with
          | none => rfl
          | some vs =>
            have := find_key_length m 2 hkeys _ _ hf
            simp at this
        simp [hnone, segmentations, reading_output, Segment.output]
      | cons d rest =>
        have hlen2 : index + 2 ≤ input.length := by
          have := congrArg List.length hd
          simp only [List.length_drop, List.length_cons] at this
          omega
        have hrest : input.drop (index + 2) = rest := by
          have := List.drop_drop 1 (index + 1) input
          rw [hd] at this
          simpa using this.symm
        have htake : List.take 2 (input[index] :: d :: rest) = [input[index], d] := rfl
        simp only [htake, segmentations, listed]
        cases hf : m.find [input[index], d] with
        | none => simp [reading_output, List.flatMap_cons, Segment.output]
        | some vs =>
          simp only []
          rw [foldlM_append_ok _
            (fun s => (segmentations m rest).map
              (fun segs => (current ++ s) ++ reading_output m segs))
            (fun acc s => by
              rw [ih acc (index + 2) (current ++ s) hlen2 (by omega), hrest])]
          rw [flatMap_range_getD vs]
          simp [reading_output, List.flatMap_cons, Segment.output, listed, hf,
            List.map_flatMap, Function.comp_def]

theorem ligature_phase_eq (t : substitution_table) (w : Str)
    (hkeys : ∀ kv ∈ t.table_ligatures, kv.1.length = 2) :
    ligature_phase t w =
      .ok ((segmentations t.table_ligatures w).map (reading_output t.table_ligatures)) := by
  unfold ligature_phase generate_substitutions
  rw [generate_substitutions_fuel_ligatures _ _ hkeys _ [] 0 [] (by omega) (by omega)]
  simp

theorem source_flatMap_eq_nil (segs : List Segment)
    (h : segs.flatMap Segment.source = []) : segs = [] := by
  cases segs with
  | nil => rfl
  | cons seg rest =>
    cases seg <;> simp [List.flatMap_cons, Segment.source] at h

/-- The readings listed for a word are exactly the lists of valid pieces whose
sources make up the word. -/
theorem mem_segmentations (m : StrMap) (w : Str) :
    ∀ segs : List Segment, segs ∈ segmentations m w ↔
      (segs.flatMap Segment.source = w ∧ ∀ seg ∈ segs, seg.valid m) := by
  induction w using segmentations.induct m with
  | case1 =>
    intro segs
    simp only [segmentations, List.mem_singleton]
    constructor
    · rintro rfl; simp
    · rintro ⟨h, _⟩; exact source_flatMap_eq_nil segs h
  | case2 c =>
    intro segs
    simp only [segmentations, List.mem_singleton]
    constructor
    · rintro rfl; simp [List.flatMap_cons, Segment.source, Segment.valid]
    · rintro ⟨h, _⟩
      cases segs with
      | nil => simp at h
      | cons seg rest =>
        cases seg with
        | keep x =>
          simp only [List.flatMap_cons, Segment.source, List.singleton_append,
            List.cons.injEq] at h
          rw [h.1, source_flatMap_eq_nil rest h.2]
        | replace a b j => simp [List.flatMap_cons, Segment.source] at h
  | case3 c d rest ih1 ih2 =>
    intro segs
    simp only [segmentations, List.mem_append, List.mem_map, List.mem_flatMap, List.mem_range]
    constructor
    · rintro (⟨tl, htl, rfl⟩ | ⟨j, hj, tl, htl, rfl⟩)
      · obtain ⟨h1, h2⟩ := (ih1 tl).mp htl
        refine ⟨by simp [List.flatMap_cons, Segment.source, h1], ?_⟩
        intro seg hseg
        rcases List.mem_cons.mp hseg with rfl | hseg
        · trivial
        · exact h2 seg hseg
      · obtain ⟨h1, h2⟩ := (ih2 tl).mp htl
        refine ⟨by simp [List.flatMap_cons, Segment.source, h1], ?_⟩
        intro seg hseg
        rcases List.mem_cons.mp hseg with rfl | hseg
        · exact hj
        · exact h2 seg hseg
    · rintro ⟨h, hv⟩
      cases segs with
      | nil => simp at h
      | cons seg tl =>
        cases seg with
        | keep x =>
          simp only [List.flatMap_cons, Segment.source, List.singleton_append,
            List.cons.injEq] at h
          left
          refine ⟨tl, (ih1 tl).mpr ⟨h.2, fun seg hseg => hv seg (List.mem_cons_of_mem _ hseg)⟩, ?_⟩
          rw [h.1]
        | replace a b j =>
          simp only [List.flatMap_cons, Segment.source, List.cons_append, List.nil_append,
            List.cons.injEq] at h
          right
          have hj : (Segment.replace a b j).valid m := hv _ (List.mem_cons_self _ _)
          obtain ⟨ha, hb, hrest⟩ := h
          subst ha hb
          exact ⟨j, hj, tl,
            (ih2 tl).mpr ⟨hrest, fun seg hseg => hv seg (List.mem_cons_of_mem _ hseg)⟩, rfl⟩

/-- No reading is listed twice. -/
theorem segmentations_nodup (m : StrMap) (w : Str) : (segmentations m w).Nodup := by
  induction w using segmentations.induct m with
  | case1 => simp [segmentations]
  | case2 c => simp [segmentations]
  | case3 c d rest ih1 ih2 =>
    simp only [segmentations]
    rw [List.nodup_append]
    refine ⟨?_, ?_, ?_⟩
    · exact ih1.map (fun a b h => by simpa using h)
    · rw [List.nodup_flatMap]
      refine ⟨fun j _ => ih2.map (fun a b h => by simpa using h), ?_⟩
      apply (List.nodup_range _).pairwise_of_forall_ne
      intro j _ k _ hjk
      intro x hx1 hx2
      simp only [List.mem_map] at hx1 hx2
      obtain ⟨_, _, rfl⟩ := hx1
      obtain ⟨_, _, h⟩ := hx2
      simp only [List.cons.injEq, Segment.replace.injEq, true_and] at h
      exact hjk h.1.symm
    · intro x hx1 hx2
      simp only [List.mem_map, List.mem_flatMap] at hx1 hx2
      obtain ⟨_, _, rfl⟩ := hx1
      obtain ⟨_, _, _, _, h⟩ := hx2
      simp at h

theorem letter_phase_empty (t : substitution_table) (hlet : t.table_letters = []) (s : Str) :
    letter_phase t s = .ok [s] := by
  rw [letter_phase, hlet, generate_substitutions_empty]

/-- C16: with an empty letter map and ligature keys of length 2, `substitute`
returns the list of the outputs of the readings of the word, a reading being a
choice of non-overlapping two-byte slices that are keys, each replaced by one
of its listed replacements, all other bytes kept; every reading is listed once,
so each gives one output. -/
theorem substitute_ligatures (t : substitution_table) (w : Str)
    (hlet : t.table_letters = []) (hkeys : ∀ kv ∈ t.table_ligatures, kv.1.length = 2) :
    ∃ readings : List (List Segment),
      substitute t w = .ok (readings.map (reading_output t.table_ligatures)) ∧
      readings.Nodup ∧
      ∀ segs : List Segment, segs ∈ readings ↔
        (segs.flatMap Segment.source = w ∧ ∀ seg ∈ segs, seg.valid t.table_ligatures) := by
  refine ⟨segmentations t.table_ligatures w, ?_, segmentations_nodup _ _, mem_segmentations _ _⟩
  rw [substitute_eq_phases, ligature_phase_eq t w hkeys]
  exact concat_results_singletons _ (letter_phase_empty t hlet) _

/-- Witness of C16: the Manx table and the word "chch" yield "chch", "chçh",
"çhch" and "çhçh", one for each of the four readings. -/
theorem substitute_ligatures_witness :
    substitute table_gv [0x63, 0x68, 0x63, 0x68] =
      .ok [[0x63, 0x68, 0x63, 0x68], [0x63, 0x68, 0xC3, 0xA7, 0x68],
        [0xC3, 0xA7, 0x68, 0x63, 0x68], [0xC3, 0xA7, 0x68, 0xC3, 0xA7, 0x68]] ∧
    ∃ readings : List (List Segment),
      substitute table_gv [0x63, 0x68, 0x63, 0x68] =
        .ok (readings.map (reading_output table_gv.table_ligatures)) ∧
      readings.Nodup ∧ readings.length = 4 := by
  obtain ⟨readings, h1, h2, _⟩ :=
    substitute_ligatures table_gv [0x63, 0x68, 0x63, 0x68] rfl (by decide)
  refine ⟨rfl, readings, h1, h2, ?_⟩
  have h3 : substitute table_gv [0x63, 0x68, 0x63, 0x68] =
      .ok [[0x63, 0x68, 0x63, 0x68], [0x63, 0x68, 0xC3, 0xA7, 0x68],
        [0xC3, 0xA7, 0x68, 0x63, 0x68], [0xC3, 0xA7, 0x68, 0xC3, 0xA7, 0x68]] := rfl
  rw [h1] at h3
  have h4 := congrArg List.length (Except.ok.inj h3)
  simpa using h4

/-! ## Ligature priority -/

theorem cartesian_product_append (m : StrMap) (a b : Str) :
    cartesian_product m (a ++ b) =
      (cartesian_product m a).flatMap (fun x => (cartesian_product m b).map (x ++ ·)) := by
  induction a with
  | nil => simp [cartesian_product]
  | cons c a ih =>
    rw [List.cons_append]
    simp only [cartesian_product]
    rw [ih]
    simp only [List.flatMap_assoc, List.map_flatMap, List.flatMap_map, List.map_map,
      Function.comp_def, List.append_assoc]

theorem cartesian_product_singleton (m : StrMap) (c : Nat) :
    cartesian_product m [c] = choices m c := by
  simp [cartesian_product, choices, List.flatMap_cons]

theorem cartesian_product_of_no_key (m : StrMap) (s : Str)
    (h : ∀ b ∈ s, m.find [b] = none) : cartesian_product m s = [s] := by
  induction s with
  | nil => rfl
  | cons c s ih =>
    have hc := h c (List.mem_cons_self _ _)
    simp [cartesian_product, choices, hc, ih (fun b hb => h b (List.mem_cons_of_mem _ hb)),
      List.flatMap_cons]

theorem output_bytes_no_key (t : substitution_table)
    (hdisjoint : ∀ kv ∈ t.table_ligatures, ∀ s ∈ kv.2, ∀ b ∈ s, t.table_letters.find [b] = none)
    (a b j : Nat) :
    ∀ x ∈ Segment.output t.table_ligatures (.replace a b j), t.table_letters.find [x] = none := by
  intro x hx
  simp only [Segment.output, listed] at hx
  cases hf : t.table_ligatures.find [a, b] with
  | none => simp [hf] at hx
  | some vs =>
    simp only [hf, Option.getD_some] at hx
    by_cases hj : j < vs.length
    · rw [List.getD_eq_getElem _ _ hj] at hx
      exact hdisjoint _ (find_some_mem _ _ _ hf) _ (List.getElem_mem hj) x hx
    · rw [List.getD_eq_default _ _ (by omega)] at hx
      simp at hx

theorem cartesian_product_reading (t : substitution_table)
    (hdisjoint : ∀ kv ∈ t.table_ligatures, ∀ s ∈ kv.2, ∀ b ∈ s, t.table_letters.find [b] = none)
    (segs : List Segment) :
    cartesian_product t.table_letters (reading_output t.table_ligatures segs) =
      product_of (segs.map (Segment.letter_choices t)) := by
  induction segs with
  | nil => rfl
  | cons seg segs ih =>
    have hhead : cartesian_product t.table_letters (Segment.output t.table_ligatures seg) =
        Segment.letter_choices t seg := by
      cases seg with
      | keep c => exact cartesian_product_singleton _ c
      | replace a b j =>
        exact cartesian_product_of_no_key _ _ (output_bytes_no_key t hdisjoint a b j)
    unfold reading_output at ih ⊢
    rw [List.flatMap_cons, cartesian_product_append, ih, hhead]
    rfl

theorem concat_results_ok_map (f : Str → Except Fault (List Str)) (g : Str → List Str)
    (hf : ∀ s, f s = .ok (g s)) :
    ∀ l : List Str, concat_results (l.map f) = .ok (l.flatMap g) := by
  intro l
  induction l with
  | nil => rfl
  | cons a l ih => simp [concat_results, hf, ih, List.flatMap_cons]

/-- With ligature keys of length 2, `substitute` returns, for each reading of
the word by the ligature phase, the letter-phase expansion of the output of
that reading. -/
theorem substitute_eq_readings (t : substitution_table) (w : Str)
    (hkeys : ∀ kv ∈ t.table_ligatures, kv.1.length = 2) :
    substitute t w = .ok ((segmentations t.table_ligatures w).flatMap
      (fun segs => cartesian_product t.table_letters (reading_output t.table_ligatures segs))) := by
  rw [substitute_eq_phases, ligature_phase_eq t w hkeys]
  simp only []
  rw [concat_results_ok_map _ _ (letter_phase_eq t), List.flatMap_map]

/-- C19, the claim as stated fails: with the letter map "h" ↦ "ħ" and the
ligature map "ch" ↦ "çh", both with keys of the required lengths, the word
"ch" yields "çħ", in which the letter phase has replaced the "h" of the text
emitted for the digraph; ligature priority allows "ch", "cħ" and "çh" only. -/
theorem ligature_priority_counterexample :
    (∀ kv ∈ [(([0x63, 0x68] : Str), [([0xC3, 0xA7, 0x68] : Str)])], kv.1.length = 2) ∧
    (∀ kv ∈ [(([0x68] : Str), [([0xC4, 0xA7] : Str)])], kv.1.length = 1) ∧
    substitute ⟨[([0x68], [[0xC4, 0xA7]])], [([0x63, 0x68], [[0xC3, 0xA7, 0x68]])]⟩
        [0x63, 0x68] =
      .ok [[0x63, 0x68], [0x63, 0xC4, 0xA7], [0xC3, 0xA7, 0x68], [0xC3, 0xA7, 0xC4, 0xA7]] ∧
    priority_candidates ⟨[([0x68], [[0xC4, 0xA7]])], [([0x63, 0x68], [[0xC3, 0xA7, 0x68]])]⟩
        [0x63, 0x68] =
      [[0x63, 0x68], [0x63, 0xC4, 0xA7], [0xC3, 0xA7, 0x68]] ∧
    ¬ ∀ (t : substitution_table) (w : Str),
      (∀ kv ∈ t.table_ligatures, kv.1.length = 2) → (∀ kv ∈ t.table_letters, kv.1.length = 1) →
      substitute t w = .ok (priority_candidates t w) := by
  refine ⟨by decide, by decide, rfl, by decide, ?_⟩
  intro h
  have h1 := h ⟨[([0x68], [[0xC4, 0xA7]])], [([0x63, 0x68], [[0xC3, 0xA7, 0x68]])]⟩
    [0x63, 0x68] (by decide) (by decide)
  have h2 : substitute ⟨[([0x68], [[0xC4, 0xA7]])], [([0x63, 0x68], [[0xC3, 0xA7, 0x68]])]⟩
      [0x63, 0x68] =
      .ok [[0x63, 0x68], [0x63, 0xC4, 0xA7], [0xC3, 0xA7, 0x68], [0xC3, 0xA7, 0xC4, 0xA7]] := rfl
  rw [h2] at h1
  have h3 := congrArg List.length (Except.ok.inj h1)
  revert h3
  decide

/-- C19, amended: when the ligature keys have length 2, the letter keys have
length 1 and no byte of a listed ligature replacement is a key of the letter
map, which is so in every table of
`SUBSTITUTION_TABLES`, `substitute` returns for each reading of the word the
letter substitutions of its kept bytes only, the text emitted for a replaced
digraph being left as it is. -/
theorem ligature_priority :
    (∀ entry ∈ SUBSTITUTION_TABLES, ∀ kv ∈ entry.2.table_ligatures, ∀ s ∈ kv.2, ∀ b ∈ s,
      entry.2.table_letters.find [b] = none) ∧
    ∀ (t : substitution_table) (w : Str),
      (∀ kv ∈ t.table_ligatures, kv.1.length = 2) → (∀ kv ∈ t.table_letters, kv.1.length = 1) →
      (∀ kv ∈ t.table_ligatures, ∀ s ∈ kv.2, ∀ b ∈ s, t.table_letters.find [b] = none) →
      substitute t w = .ok (priority_candidates t w) := by
  refine ⟨by decide, ?_⟩
  intro t w hkeys _ hdisjoint
  rw [substitute_eq_readings t w hkeys, priority_candidates]
  congr 1
  apply List.flatMap_congr
  intro segs _
  exact cartesian_product_reading t hdisjoint segs

/-- Witness of C19, amended: the German table and the word "ue" give "ue" and
"üe" from the reading that keeps both bytes and "ü" from the reading that
replaces the digraph. -/
theorem ligature_priority_witness :
    substitute table_de [0x75, 0x65] = .ok (priority_candidates table_de [0x75, 0x65]) ∧
    priority_candidates table_de [0x75, 0x65] = [[0x75, 0x65], [0xC3, 0xBC, 0x65], [0xC3, 0xBC]] :=
  ⟨ligature_priority.2 table_de [0x75, 0x65] (by decide) (by decide) (by decide), by decide⟩

/-! ## Termination and bounds of the traversal -/

theorem pushes_append (a b : List Event) : pushes (a ++ b) = pushes a ++ pushes b := by
  induction a with
  | nil => rfl
  | cons e a ih => cases e <;> simp [pushes, ih]

theorem completions_append (n : Nat) (a b : List Event) :
    completions n (a ++ b) = completions n a + completions n b := by
  induction a with
  | nil => simp [completions]
  | cons e a ih => cases e <;> simp [completions, ih, Nat.add_assoc]

theorem accounts_for_nil (n : Nat) : accounts_for n [] [] :=
  ⟨fun _ h => by simp at h, rfl, rfl⟩

theorem accounts_for_append (n : Nat) (out1 out2 : List Str) (tr1 tr2 : List Event)
    (h1 : accounts_for n out1 tr1) (h2 : accounts_for n out2 tr2) :
    accounts_for n (out1 ++ out2) (tr1 ++ tr2) := by
  obtain ⟨a1, b1, c1⟩ := h1
  obtain ⟨a2, b2, c2⟩ := h2
  refine ⟨?_, ?_, ?_⟩
  · intro e he
    rcases List.mem_append.mp he with h | h
    · exact a1 e h
    · exact a2 e h
  · rw [pushes_append, b1, b2]
  · rw [completions_append, c1, c2, List.length_append]

/-- A loop of calls that each extend the result and the record in step extends
them in step as a whole. -/
theorem foldlM_traced (n : Nat)
    (gT : List Str × List Event → Str → Except Fault (List Str × List Event))
    (gP : List Str → Str → Except Fault (List Str))
    (h : ∀ acc s, ∃ out tr, gT acc s = .ok (acc.1 ++ out, acc.2 ++ tr) ∧
      gP acc.1 s = .ok (acc.1 ++ out) ∧ accounts_for n out tr) :
    ∀ (vs : List Str) (acc : List Str × List Event),
      ∃ out tr, vs.foldlM gT acc = .ok (acc.1 ++ out, acc.2 ++ tr) ∧
        vs.foldlM gP acc.1 = .ok (acc.1 ++ out) ∧ accounts_for n out tr := by
  intro vs
  induction vs with
  | nil =>
    intro acc
    exact ⟨[], [], by simp [pure, Except.pure], by simp [pure, Except.pure], accounts_for_nil n⟩
  | cons v vs ih =>
    intro acc
    obtain ⟨out1, tr1, hT, hP, hQ⟩ := h acc v
    obtain ⟨out2, tr2, hT2, hP2, hQ2⟩ := ih (acc.1 ++ out1, acc.2 ++ tr1)
    refine ⟨out1 ++ out2, tr1 ++ tr2, ?_, ?_, accounts_for_append n _ _ _ _ hQ hQ2⟩
    · rw [List.foldlM_cons, hT]
      simp only [bind, Except.bind]
      rw [hT2]
      simp [List.append_assoc]
    · rw [List.foldlM_cons, hP]
      simp only [bind, Except.bind]
      rw [hP2]
      simp [List.append_assoc]

/-- With keys of the length `len_of_key ≥ 1` they are searched with, every
call from inside the input returns, in step with the recorded run, and the
record accounts for what was appended. -/
theorem generate_substitutions_traced_spec (map : StrMap) (input : Str) (len_of_key : Nat)
    (hpos : 1 ≤ len_of_key) (hkeys : ∀ kv ∈ map, kv.1.length = len_of_key) :
    ∀ (fuel : Nat) (state : List Str × List Event) (index : Nat) (current : Str),
      index ≤ input.length → input.length + 1 ≤ fuel + index →
      ∃ out tr,
        generate_substitutions_traced map input len_of_key fuel state index current =
          .ok (state.1 ++ out, state.2 ++ tr) ∧
        generate_substitutions_fuel map input len_of_key fuel state.1 index current =
          .ok (state.1 ++ out) ∧
        accounts_for input.length out tr := by
  intro fuel
  induction fuel with
  | zero => intro state index current h1 h2; omega
  | succ fuel ih =>
    intro state index current h1 h2
    unfold generate_substitutions_traced generate_substitutions_fuel
    by_cases hi : index = input.length
    · refine ⟨[current], [Event.enter index, Event.push current], by simp [hi], by simp [hi], ?_⟩
      refine ⟨?_, by simp [pushes], by simp [completions, hi]⟩
      intro e he
      simp only [List.mem_cons, List.mem_singleton, List.not_mem_nil, or_false] at he
      rcases he with rfl | rfl
      · exact h1
      · trivial
    · have hlt : index < input.length := by omega
      have hsub : substr input index len_of_key = .ok ((input.drop index).take len_of_key) := by
        simp [substr]; omega
      simp only [hi, if_false, hsub]
      obtain ⟨out1, tr1, hT1, hP1, hQ1⟩ := ih
        (state.1, state.2 ++ [Event.enter index, Event.read index]) (index + 1)
        (current ++ [input.getD index 0]) (by omega) (by omega)
      have hhead : accounts_for input.length [] [Event.enter index, Event.read index] := by
        refine ⟨?_, by simp [pushes], by simp [completions, hi]⟩
        intro e he
        simp only [List.mem_cons, List.mem_singleton, List.not_mem_nil, or_false] at he
        rcases he with rfl | rfl
        · exact h1
        · exact hlt
      rw [hT1, hP1]
      simp only []
      cases hf : map.find ((input.drop index).take len_of_key) with
      | none =>
        refine ⟨out1, [Event.enter index, Event.read index] ++ tr1, by simp, rfl, ?_⟩
        simpa using accounts_for_append _ _ _ _ _ hhead hQ1
      | some variants =>
        have hlen := hkeys _ (find_some_mem _ _ _ hf)
        simp only [List.length_take, List.length_drop] at hlen
        obtain ⟨out2, tr2, hT2, hP2, hQ2⟩ := foldlM_traced input.length
          (fun acc s => generate_substitutions_traced map input len_of_key fuel acc
            (index + len_of_key) (current ++ s))
          (fun acc s => generate_substitutions_fuel map input len_of_key fuel acc
            (index + len_of_key) (current ++ s))
          (fun acc s => ih acc (index + len_of_key) (current ++ s) (by omega) (by omega))
          variants (state.1 ++ out1, state.2 ++ [Event.enter index, Event.read index] ++ tr1)
        refine ⟨out1 ++ out2, [Event.enter index, Event.read index] ++ tr1 ++ tr2, ?_, ?_, ?_⟩
        · simp only []
          rw [hT2]
          simp [List.append_assoc]
        · simp only [] at hP2 ⊢
          rw [hP2]
          simp [List.append_assoc]
        · have := accounts_for_append _ _ _ _ _ (accounts_for_append _ _ _ _ _ hhead hQ1) hQ2
          simpa using this

/-- With keys of length 1 or 2 as searched, what the generator appends does
not depend on the fuel once there is enough of it. -/
theorem generate_substitutions_fuel_closed (map : StrMap) (input : Str) (len_of_key : Nat)
    (hlen : len_of_key = 1 ∨ len_of_key = 2) (hkeys : ∀ kv ∈ map, kv.1.length = len_of_key)
    (index : Nat) (current : Str) (hidx : index ≤ input.length) :
    ∃ out, ∀ (fuel : Nat) (result : List Str), input.length + 1 ≤ fuel + index →
      generate_substitutions_fuel map input len_of_key fuel result index current =
        .ok (result ++ out) := by
  rcases hlen with rfl | rfl
  · exact ⟨_, fun fuel result hf =>
      generate_substitutions_fuel_letters map input fuel result index current hidx hf⟩
  · exact ⟨_, fun fuel result hf =>
      generate_substitutions_fuel_ligatures map input hkeys fuel result index current hidx hf⟩

/-- C17: for a map whose keys all have the length `len_of_key`, 1 or 2, and a
start index inside the input, `generate_substitutions` returns with any
recursion depth of at least `input.size() - index + 1`; in the recorded run
every call has `index ≤ input.size()`, every read of `input[index]` has
`index < input.size()`, the strings appended to `result` are those pushed, and
there is one of them for each call entered at `index == input.size()`. -/
theorem generate_substitutions_in_bounds (map : StrMap) (input : Str) (len_of_key : Nat)
    (result : List Str) (index : Nat) (current : Str)
    (hlen : len_of_key = 1 ∨ len_of_key = 2) (hkeys : ∀ kv ∈ map, kv.1.length = len_of_key)
    (hidx : index ≤ input.length) :
    ∃ out trace,
      (∀ fuel, input.length + 1 ≤ fuel + index →
        generate_substitutions_fuel map input len_of_key fuel result index current =
          .ok (result ++ out)) ∧
      generate_substitutions map input result index current len_of_key = .ok (result ++ out) ∧
      generate_substitutions_traced map input len_of_key (input.length + 1 - index)
        (result, []) index current = .ok (result ++ out, trace) ∧
      (∀ i, Event.enter i ∈ trace → i ≤ input.length) ∧
      (∀ i, Event.read i ∈ trace → i < input.length) ∧
      pushes trace = out ∧
      completions input.length trace = out.length := by
  have hpos : 1 ≤ len_of_key := by omega
  obtain ⟨out, hout⟩ := generate_substitutions_fuel_closed map input len_of_key hlen hkeys
    index current hidx
  obtain ⟨out2, tr, hT, hP, hin, hpush, hcount⟩ :=
    generate_substitutions_traced_spec map input len_of_key hpos hkeys
      (input.length + 1 - index) (result, []) index current hidx (by omega)
  have heq : out2 = out := by
    have h := hout (input.length + 1 - index) result (by omega)
    simp only [] at hP
    rw [hP] at h
    exact List.append_cancel_left (Except.ok.inj h)
  subst heq
  refine ⟨out2, tr, fun fuel hf => hout fuel result hf, hout _ result (by omega), ?_,
    fun i hi => hin _ hi, fun i hi => hin _ hi, hpush, hcount⟩
  simpa using hT

/-- Witness of C17: the ligature map of the Manx table over "chch" from index
0: four strings are appended. -/
theorem generate_substitutions_in_bounds_witness :
    ∃ out trace,
      generate_substitutions table_gv.table_ligatures [0x63, 0x68, 0x63, 0x68] [] 0 [] 2 =
        .ok out ∧
      generate_substitutions_traced table_gv.table_ligatures [0x63, 0x68, 0x63, 0x68] 2 5
        ([], []) 0 [] = .ok (out, trace) ∧
      (∀ i, Event.enter i ∈ trace → i ≤ 4) ∧ (∀ i, Event.read i ∈ trace → i < 4) ∧
      completions 4 trace = out.length := by
  obtain ⟨out, trace, _, h2, h3, h4, h5, _, h7⟩ :=
    generate_substitutions_in_bounds table_gv.table_ligatures [0x63, 0x68, 0x63, 0x68] 2
      [] 0 [] (Or.inr rfl) (by decide) (Nat.zero_le _)
  exact ⟨out, trace, by simpa using h2, by simpa using h3, h4, h5, h7⟩

/-! ## The code points of the canonical key -/

theorem simplify_eq_toUTF8String (icu : Icu) (s : Str) :
    simplify icu s = icu.toUTF8String (simplify_units icu s) := rfl

theorem char32At_scalar (us : UnicodeString) (hwf : well_formed_utf16 us) (i : Nat)
    (hi : i < us.length) : is_scalar_value (char32At us i) := by
  obtain ⟨h16, hlead, htrail⟩ := hwf i hi
  unfold is_scalar_value
  simp only [char32At, hi, if_true]
  by_cases hl : U16_IS_LEAD (us.getD i 0) = true
  · obtain ⟨hnext, ht⟩ := hlead hl
    have hne : i + 1 ≠ us.length := by omega
    simp only [hl, if_true, hne, ne_eq, not_false_eq_true, ht, and_self]
    simp only [U16_IS_LEAD, U16_IS_TRAIL, decide_eq_true_eq] at hl ht
    unfold U16_GET_SUPPLEMENTARY
    omega
  · simp only [hl, Bool.false_eq_true, if_false]
    by_cases ht : U16_IS_TRAIL (us.getD i 0) = true
    · obtain ⟨hpos, hprev⟩ := htrail ht
      simp only [ht, if_true, hpos, hprev, and_self]
      simp only [U16_IS_LEAD, U16_IS_TRAIL, decide_eq_true_eq] at hprev ht
      unfold U16_GET_SUPPLEMENTARY
      omega
    · simp only [ht, Bool.false_eq_true, if_false]
      simp only [U16_IS_LEAD, U16_IS_TRAIL, decide_eq_true_eq] at hl ht
      omega

theorem append_eq_append (r : UnicodeString) (c : Nat) : append r c = r ++ append [] c := by
  unfold append
  split_ifs <;> simp

theorem foldl_append_eq_flatMap (l : List Nat) :
    ∀ r : UnicodeString, l.foldl append r = r ++ l.flatMap (append []) := by
  induction l with
  | nil => intro r; simp
  | cons c l ih =>
    intro r
    rw [List.foldl_cons, ih, append_eq_append r c, List.flatMap_cons, List.append_assoc]

theorem code_points_cons_of_not_lead (u : Nat) (rest : UnicodeString)
    (h : U16_IS_LEAD u = false) : code_points (u :: rest) = u :: code_points rest := by
  cases rest with
  | nil => rfl
  | cons v rest => simp [code_points, h]

/-- Decoding the UTF-16 form of scalar values gives them back. -/
theorem code_points_flatMap_append (l : List Nat) (h : ∀ c ∈ l, is_scalar_value c) :
    code_points (l.flatMap (append [])) = l := by
  induction l with
  | nil => rfl
  | cons c l ih =>
    have hc := h c (List.mem_cons_self _ _)
    have ih2 := ih (fun x hx => h x (List.mem_cons_of_mem _ hx))
    unfold is_scalar_value at hc
    rw [List.flatMap_cons]
    by_cases hle : c ≤ 0xFFFF
    · have hl : U16_IS_LEAD c = false := by
        simp only [U16_IS_LEAD, decide_eq_false_iff_not]; omega
      simp only [append, hle, if_true, List.nil_append, List.singleton_append]
      rw [code_points_cons_of_not_lead c _ hl, ih2]
    · have h2 : c ≤ 0x10FFFF := by omega
      have hl : U16_IS_LEAD ((c - 0x10000) / 0x400 + 0xD800) = true := by
        simp only [U16_IS_LEAD, decide_eq_true_eq]; omega
      have ht : U16_IS_TRAIL ((c - 0x10000) % 0x400 + 0xDC00) = true := by
        simp only [U16_IS_TRAIL, decide_eq_true_eq]; omega
      have hs : U16_GET_SUPPLEMENTARY ((c - 0x10000) / 0x400 + 0xD800)
          ((c - 0x10000) % 0x400 + 0xDC00) = c := by
        unfold U16_GET_SUPPLEMENTARY; omega
      simp only [append, hle, if_false, h2, if_true, List.nil_append, List.cons_append,
        code_points, hl, ht, Bool.and_self, hs, ih2]

/-- The filter loop over a well-formed string leaves the UTF-16 form of scalar
values that the banned set does not contain. -/
theorem simplify_filter_invariant (icu : Icu) (us : UnicodeString)
    (hwf : well_formed_utf16 us) :
    ∀ n, n ≤ us.length →
      ∃ l : List Nat,
        (List.range n).foldl
          (fun result i =>
            let c := char32At us i
            if !icu.banned_set_contains c then append result c else result) [] =
          l.flatMap (append []) ∧
        ∀ c ∈ l, is_scalar_value c ∧ icu.banned_set_contains c = false := by
  intro n
  induction n with
  | zero => intro _; exact ⟨[], rfl, fun c hc => by simp at hc⟩
  | succ n ih =>
    intro hn
    obtain ⟨l, hl, hgood⟩ := ih (by omega)
    rw [List.range_succ, List.foldl_append, hl]
    simp only [List.foldl_cons, List.foldl_nil]
    by_cases hban : icu.banned_set_contains (char32At us n) = true
    · exact ⟨l, by simp [hban], hgood⟩
    · refine ⟨l ++ [char32At us n], ?_, ?_⟩
      · simp only [hban, Bool.not_false, Bool.not_eq_true, if_true, Bool.false_eq_true,
          not_false_eq_true]
        rw [append_eq_append, List.flatMap_append]
        simp [List.flatMap_cons]
      · intro c hc
        rcases List.mem_append.mp hc with h | h
        · exact hgood c h
        · rw [List.mem_singleton.mp h]
          exact ⟨char32At_scalar us hwf n (by omega), by simpa using hban⟩

theorem fold_ligature_of_not_ligature (c : Nat) (h : ¬ is_ligature c) :
    fold_ligature c = [c] := by
  unfold is_ligature at h
  unfold fold_ligature
  split_ifs <;> simp_all

theorem mem_fold_ligature (c x : Nat) (hx : x ∈ fold_ligature c) :
    (x = c ∧ ¬ is_ligature c) ∨ x ∈ [0x53, 0x73, 0x41, 0x45, 0x61, 0x65, 0x4F, 0x6F] := by
  unfold fold_ligature at hx
  unfold is_ligature
  split_ifs at hx <;> simp at hx <;> first
    | (left; exact ⟨hx, by omega⟩)
    | (right; rcases hx with rfl | rfl <;> simp)

theorem flatMap_append_of_le (l : List Nat) (h : ∀ c ∈ l, c ≤ 0xFFFF) :
    l.flatMap (append []) = l := by
  have := foldl_append_of_le l h []
  rw [foldl_append_eq_flatMap] at this
  simpa using this

theorem fold_ligature_units (c : Nat) (hc : is_scalar_value c) :
    (append [] c).flatMap fold_ligature = (fold_ligature c).flatMap (append []) := by
  unfold is_scalar_value at hc
  by_cases hle : c ≤ 0xFFFF
  · rw [flatMap_append_of_le _ (fold_ligature_le c hle)]
    simp [append, hle, List.flatMap_cons]
  · have h2 : c ≤ 0x10FFFF := by omega
    have hc3 : fold_ligature c = [c] :=
      fold_ligature_of_not_ligature c (by unfold is_ligature; omega)
    have hhi : fold_ligature ((c - 0x10000) / 0x400 + 0xD800) =
        [(c - 0x10000) / 0x400 + 0xD800] :=
      fold_ligature_of_not_ligature _ (by unfold is_ligature; omega)
    have hlo : fold_ligature ((c - 0x10000) % 0x400 + 0xDC00) =
        [(c - 0x10000) % 0x400 + 0xDC00] :=
      fold_ligature_of_not_ligature _ (by unfold is_ligature; omega)
    rw [hc3]
    simp [append, hle, h2, List.flatMap_cons, hhi, hlo]

/-- The six replacements act on the UTF-16 form of scalar values as the
folding of the ligatures among them. -/
theorem simplify_fold_encoded (l : List Nat) (h : ∀ c ∈ l, is_scalar_value c) :
    simplify_fold (l.flatMap (append [])) = (l.flatMap fold_ligature).flatMap (append []) := by
  rw [simplify_fold_eq, flatMap_flatMap_units, flatMap_flatMap_units]
  apply List.flatMap_congr
  intro c hc
  exact fold_ligature_units c (h c hc)

/-- The code points of the string handed to `toUTF8String`, for a well-formed
normalised input: scalar values outside the banned set, folded. -/
theorem simplify_units_code_points (icu : Icu) (w : Str)
    (hwf : well_formed_utf16 (icu.normalize (icu.fromUTF8 w))) :
    ∃ l : List Nat, (∀ c ∈ l, is_scalar_value c ∧ icu.banned_set_contains c = false) ∧
      code_points (simplify_units icu w) = l.flatMap fold_ligature := by
  obtain ⟨l, hl, hgood⟩ := simplify_filter_invariant icu _ hwf _ (Nat.le_refl _)
  refine ⟨l, hgood, ?_⟩
  have hfilter : simplify_filter icu (icu.normalize (icu.fromUTF8 w)) =
      l.flatMap (append []) := hl
  rw [simplify_units, hfilter, simplify_fold_encoded l (fun c hc => (hgood c hc).1)]
  apply code_points_flatMap_append
  intro x hx
  obtain ⟨c, hc, hxc⟩ := List.mem_flatMap.mp hx
  rcases mem_fold_ligature c x hxc with ⟨rfl, _⟩ | h
  · exact (hgood x hc).1
  · unfold is_scalar_value
    simp only [List.mem_cons, List.mem_singleton, List.not_mem_nil, or_false] at h
    omega

theorem mem_code_points (us : UnicodeString) :
    ∀ c ∈ code_points us, c ∈ us ∨ 0x10000 ≤ c := by
  induction us using code_points.induct with
  | case1 => intro c hc; simp [code_points] at hc
  | case2 u => intro c hc; simp [code_points] at hc; simp [hc]
  | case3 u v rest hpair ih =>
    intro c hc
    simp only [code_points, hpair, if_true, List.mem_cons] at hc
    rcases hc with rfl | hc
    · right
      unfold U16_GET_SUPPLEMENTARY
      omega
    · rcases ih c hc with h | h
      · left; simp [h]
      · right; exact h
  | case4 u v rest hpair ih =>
    intro c hc
    simp only [code_points, hpair, Bool.false_eq_true, if_false, List.mem_cons] at hc
    rcases hc with rfl | hc
    · left; simp
    · rcases ih c hc with h | h
      · left; exact List.mem_cons_of_mem _ h
      · right; exact h

/-- C11: when the normalised input is well-formed UTF-16, the letters of the
six digraphs are outside the banned set `[[:M:][:P:][:Z:]]` and
`toUTF8String` encodes the code points of the result, no code point of
`simplify(w)` is in the banned set. -/
theorem simplify_no_banned (icu : Icu) (w : Str)
    (hwf : well_formed_utf16 (icu.normalize (icu.fromUTF8 w)))
    (hletters : ∀ x ∈ [0x53, 0x73, 0x41, 0x45, 0x61, 0x65, 0x4F, 0x6F],
      icu.banned_set_contains x = false)
    (hto : utf8_decode (icu.toUTF8String (simplify_units icu w)) =
      code_points (simplify_units icu w)) :
    ∀ c ∈ utf8_decode (simplify icu w), icu.banned_set_contains c = false := by
  intro x hx
  rw [simplify_eq_toUTF8String, hto] at hx
  obtain ⟨l, hgood, hl⟩ := simplify_units_code_points icu w hwf
  rw [hl] at hx
  obtain ⟨c, hc, hxc⟩ := List.mem_flatMap.mp hx
  rcases mem_fold_ligature c x hxc with ⟨rfl, _⟩ | h
  · exact (hgood x hc).2
  · exact hletters x h

/-- Witness of C11: "déjà-vu" on the sample instance of ICU gives "dejavu". -/
theorem simplify_no_banned_witness :
    simplify icu_sample [0x64, 0xC3, 0xA9, 0x6A, 0xC3, 0xA0, 0x2D, 0x76, 0x75] =
      [0x64, 0x65, 0x6A, 0x61, 0x76, 0x75] ∧
    ∀ c ∈ utf8_decode
        (simplify icu_sample [0x64, 0xC3, 0xA9, 0x6A, 0xC3, 0xA0, 0x2D, 0x76, 0x75]),
      icu_sample.banned_set_contains c = false :=
  ⟨by decide,
    simplify_no_banned icu_sample [0x64, 0xC3, 0xA9, 0x6A, 0xC3, 0xA0, 0x2D, 0x76, 0x75]
      (by decide) (by decide) (by decide)⟩

theorem not_ligature_of_mem_fold (c x : Nat) (hx : x ∈ fold_ligature c) : ¬ is_ligature x := by
  rcases mem_fold_ligature c x hx with ⟨rfl, h⟩ | h
  · exact h
  · simp only [List.mem_cons, List.mem_singleton, List.not_mem_nil, or_false] at h
    unfold is_ligature
    omega

/-- C12: when `toUTF8String` encodes the code points of the result, no code
point of `simplify(w)` is one of U+1E9E, U+00DF, U+00C6, U+00E6, U+0152,
U+0153: the six replacements turn each of them, where the filter loop left it,
into "SS", "ss", "AE", "ae", "OE", "oe" and leave every other code unit as
it is. -/
theorem simplify_folds_ligatures (icu : Icu) (w : Str)
    (hto : utf8_decode (icu.toUTF8String (simplify_units icu w)) =
      code_points (simplify_units icu w)) :
    (∀ c ∈ utf8_decode (simplify icu w), ¬ is_ligature c) ∧
    simplify_units icu w =
      (simplify_filter icu (icu.normalize (icu.fromUTF8 w))).flatMap fold_ligature ∧
    fold_ligature 0x1E9E = [0x53, 0x53] ∧ fold_ligature 0x00DF = [0x73, 0x73] ∧
    fold_ligature 0x00C6 = [0x41, 0x45] ∧ fold_ligature 0x00E6 = [0x61, 0x65] ∧
    fold_ligature 0x0152 = [0x4F, 0x45] ∧ fold_ligature 0x0153 = [0x6F, 0x65] ∧
    ∀ c, ¬ is_ligature c → fold_ligature c = [c] := by
  have hunits : simplify_units icu w =
      (simplify_filter icu (icu.normalize (icu.fromUTF8 w))).flatMap fold_ligature :=
    simplify_fold_eq _
  refine ⟨?_, hunits, by decide, by decide, by decide, by decide, by decide, by decide,
    fold_ligature_of_not_ligature⟩
  intro x hx
  rw [simplify_eq_toUTF8String, hto] at hx
  rcases mem_code_points _ x hx with h | h
  · rw [hunits] at h
    obtain ⟨c, _, hxc⟩ := List.mem_flatMap.mp h
    exact not_ligature_of_mem_fold c x hxc
  · unfold is_ligature
    omega

/-- Witness of C12: "Œuvre straße" on the sample instance of ICU gives
"OEuvrestrasse". -/
theorem simplify_folds_ligatures_witness :
    simplify icu_sample
        [0xC5, 0x92, 0x75, 0x76, 0x72, 0x65, 0x20, 0x73, 0x74, 0x72, 0x61, 0xC3, 0x9F, 0x65] =
      [0x4F, 0x45, 0x75, 0x76, 0x72, 0x65, 0x73, 0x74, 0x72, 0x61, 0x73, 0x73, 0x65] ∧
    ∀ c ∈ utf8_decode (simplify icu_sample
        [0xC5, 0x92, 0x75, 0x76, 0x72, 0x65, 0x20, 0x73, 0x74, 0x72, 0x61, 0xC3, 0x9F, 0x65]),
      ¬ is_ligature c :=
  ⟨by decide,
    (simplify_folds_ligatures icu_sample
      [0xC5, 0x92, 0x75, 0x76, 0x72, 0x65, 0x20, 0x73, 0x74, 0x72, 0x61, 0xC3, 0x9F, 0x65]
      (by decide)).1⟩

/-- C20: on a word of ASCII letters and digits that ICU treats as such,
`simplify` is the identity, so two such words that differ, in the case of a
letter for instance, have different canonical keys. -/
theorem simplify_ascii_alnum (icu : Icu) (w : Str) (halnum : ∀ c ∈ w, is_ascii_alnum c)
    (hicu : ascii_transparent icu w) :
    simplify icu w = w ∧
    ∀ v : Str, (∀ c ∈ v, is_ascii_alnum c) → ascii_transparent icu v → v ≠ w →
      simplify icu v ≠ simplify icu w := by
  have key : ∀ u : Str, (∀ c ∈ u, is_ascii_alnum c) → ascii_transparent icu u →
      simplify icu u = u := by
    intro u hu ⟨hfrom, hnorm, hban, hto⟩
    have hbmp : ∀ c ∈ u, is_bmp_scalar c := by
      intro c hc
      have := hu c hc
      unfold is_ascii_alnum at this
      unfold is_bmp_scalar
      omega
    have hfilter : u.filter (fun c => !icu.banned_set_contains c) = u := by
      rw [List.filter_eq_self]
      intro c hc
      simp [hban c hc]
    have hfold : u.flatMap fold_ligature = u := by
      have hpt : ∀ c ∈ u, fold_ligature c = [c] := by
        intro c hc
        apply fold_ligature_of_not_ligature
        have := hu c hc
        unfold is_ascii_alnum at this
        unfold is_ligature
        omega
      clear hfilter hbmp hto hban hnorm hfrom hu
      induction u with
      | nil => rfl
      | cons c u ih =>
        rw [List.flatMap_cons, hpt c (List.mem_cons_self _ _),
          ih (fun x hx => hpt x (List.mem_cons_of_mem _ hx))]
        rfl
    rw [simplify_eq_toUTF8String, simplify_units, hfrom, hnorm,
      simplify_filter_of_bmp icu u hbmp, hfilter, simplify_fold_eq, hfold, hto]
  refine ⟨key w halnum hicu, ?_⟩
  intro v hv hicuv hne
  rw [key v hv hicuv, key w halnum hicu]
  exact hne

/-- Witness of C20: "Resume" and "resume" on the sample instance of ICU. -/
theorem simplify_ascii_alnum_witness :
    simplify icu_sample [0x72, 0x65, 0x73, 0x75, 0x6D, 0x65] =
      [0x72, 0x65, 0x73, 0x75, 0x6D, 0x65] ∧
    simplify icu_sample [0x52, 0x65, 0x73, 0x75, 0x6D, 0x65] ≠
      simplify icu_sample [0x72, 0x65, 0x73, 0x75, 0x6D, 0x65] :=
  have h := simplify_ascii_alnum icu_sample [0x72, 0x65, 0x73, 0x75, 0x6D, 0x65]
    (by decide) ⟨by decide, by decide, by decide, by decide⟩
  ⟨h.1, h.2 [0x52, 0x65, 0x73, 0x75, 0x6D, 0x65] (by decide)
    ⟨by decide, by decide, by decide, by decide⟩ (by decide)⟩

/-! ## The first candidate -/

theorem segmentations_head (m : StrMap) (w : Str) :
    ∃ tl, segmentations m w = w.map Segment.keep :: tl := by
  induction w using segmentations.induct m with
  | case1 => exact ⟨[], rfl⟩
  | case2 c => exact ⟨[], rfl⟩
  | case3 c d rest ih1 _ =>
    obtain ⟨tl, htl⟩ := ih1
    simp only [segmentations, htl]
    exact ⟨_, rfl⟩

theorem reading_output_keep (m : StrMap) (w : Str) :
    reading_output m (w.map Segment.keep) = w := by
  induction w with
  | nil => rfl
  | cons c w ih =>
    unfold reading_output at ih ⊢
    rw [List.map_cons, List.flatMap_cons, ih]
    rfl

theorem cartesian_product_head (m : StrMap) (s : Str) :
    ∃ tl, cartesian_product m s = s :: tl := by
  induction s with
  | nil => exact ⟨[], rfl⟩
  | cons c s ih =>
    obtain ⟨tl, htl⟩ := ih
    simp only [cartesian_product, choices, List.flatMap_cons, htl, List.map_cons,
      List.singleton_append, List.cons_append]
    exact ⟨_, rfl⟩

/-- C21: with ligature keys of length 2 and letter keys of length 1,
`substitute` returns a list that is not empty and whose first element is the
word itself. -/
theorem substitute_first (t : substitution_table) (w : Str)
    (hligatures : ∀ kv ∈ t.table_ligatures, kv.1.length = 2)
    (_hletters : ∀ kv ∈ t.table_letters, kv.1.length = 1) :
    ∃ rest, substitute t w = .ok (w :: rest) := by
  rw [substitute_eq_readings t w hligatures]
  obtain ⟨tl, htl⟩ := segmentations_head t.table_ligatures w
  obtain ⟨tl2, htl2⟩ := cartesian_product_head t.table_letters w
  rw [htl, List.flatMap_cons, reading_output_keep, htl2]
  exact ⟨_, rfl⟩

/-- Witness of C21: the French table and the word "oeuf". -/
theorem substitute_first_witness :
    ∃ rest, substitute table_fr [0x6F, 0x65, 0x75, 0x66] = .ok ([0x6F, 0x65, 0x75, 0x66] :: rest) :=
  substitute_first table_fr [0x6F, 0x65, 0x75, 0x66] (by decide) (by decide)

/-! ## Banned characters in the fallback path -/

/-- The vector `forms` of the fallback branch. -/
theorem fallback_result (locale : Locale) (icu : Icu) (SUBSTITUTION_MAX_LENGTH : Nat)
    (self : Speller) (sched : List Nat) (w : Str) (hsub : is_substitutable locale w = true)
    (hfallback : self.sub_table = none ∨ SUBSTITUTION_MAX_LENGTH < w.length) :
    Speller_orthographic_forms locale icu SUBSTITUTION_MAX_LENGTH self sched w =
      .ok (run_threads
        (fun s forms =>
          if (is_without_banned_chars s && simplify icu s == simplify icu w) = true
          then forms ++ [s] else forms)
        sched (self.hunspell.suggest w) []) := by
  unfold Speller_orthographic_forms
  simp only [hsub, if_true]
  cases hst : self.sub_table with
  | none => rfl
  | some t =>
    have hlt : SUBSTITUTION_MAX_LENGTH < w.length := by
      cases hfallback with
      | inl h => rw [hst] at h; cases h
      | inr h => exact h
    simp only [if_neg (Nat.not_le.mpr hlt)]

theorem banned_of_mem (w : Str) (h : 0x2D ∈ w ∨ 0x27 ∈ w) :
    is_without_banned_chars w = false := by
  rw [← Bool.not_eq_true]
  intro hw
  simp only [is_without_banned_chars, BANNED_CHARS, List.all_cons, List.all_nil,
    Bool.and_true, Bool.and_eq_true, string_find_singleton] at hw
  rcases h with h | h
  · exact hw.2.1 h
  · exact hw.2.2.1 h

/-- C23: in the fallback path every returned string passes
`is_without_banned_chars`; so a substitutable word that contains a hyphen or
an apostrophe is not among the forms returned for it, whatever the oracle
suggests or accepts. -/
theorem fallback_never_banned (locale : Locale) (icu : Icu) (SUBSTITUTION_MAX_LENGTH : Nat)
    (self : Speller) (sched : List Nat) (w : Str) (hsub : is_substitutable locale w = true)
    (hfallback : self.sub_table = none ∨ SUBSTITUTION_MAX_LENGTH < w.length) :
    ∃ forms, Speller_orthographic_forms locale icu SUBSTITUTION_MAX_LENGTH self sched w = .ok forms ∧
      (∀ s ∈ forms, is_without_banned_chars s = true) ∧
      ((0x2D ∈ w ∨ 0x27 ∈ w) → w ∉ forms) := by
  have hperm := run_threads_perm
    (fun s => is_without_banned_chars s && simplify icu s == simplify icu w) sched
    (self.hunspell.suggest w)
  have hall : ∀ s ∈ run_threads
      (fun s forms =>
        if (is_without_banned_chars s && simplify icu s == simplify icu w) = true
        then forms ++ [s] else forms)
      sched (self.hunspell.suggest w) [], is_without_banned_chars s = true := by
    intro s hs
    have h := List.of_mem_filter (hperm.mem_iff.mp hs)
    simp only [Bool.and_eq_true] at h
    exact h.1
  refine ⟨_, fallback_result locale icu SUBSTITUTION_MAX_LENGTH self sched w hsub hfallback, hall, ?_⟩
  intro hw hmem
  have h1 := hall w hmem
  rw [banned_of_mem w hw] at h1
  cases h1

/-- Witness of C23: no table, the word "co-op", suggested back together with
"coop" by an oracle that accepts everything: only "coop" is returned. -/
theorem fallback_never_banned_witness :
    ∃ forms,
      Speller_orthographic_forms c_locale icu_sample 10
        ⟨⟨fun _ => true, fun _ => [[0x63, 0x6F, 0x2D, 0x6F, 0x70], [0x63, 0x6F, 0x6F, 0x70]]⟩,
          none⟩ [1] [0x63, 0x6F, 0x2D, 0x6F, 0x70] = .ok forms ∧
      [0x63, 0x6F, 0x2D, 0x6F, 0x70] ∉ forms := by
  obtain ⟨forms, h1, _, h3⟩ := fallback_never_banned c_locale icu_sample 10
    ⟨⟨fun _ => true, fun _ => [[0x63, 0x6F, 0x2D, 0x6F, 0x70], [0x63, 0x6F, 0x6F, 0x70]]⟩,
      none⟩ [1] [0x63, 0x6F, 0x2D, 0x6F, 0x70] (by decide) (Or.inl rfl)
  exact ⟨forms, h1, h3 (Or.inl (by decide))⟩

/-! ## No candidate twice -/

theorem flatMap_comm_perm {α β γ : Type} (l : List α) (m : List β) (g : α → β → List γ) :
    (l.flatMap (fun a => m.flatMap (g a))).Perm
      (m.flatMap (fun b => l.flatMap (fun a => g a b))) := by
  induction l with
  | nil => simp
  | cons a l ih =>
    simp only [List.flatMap_cons]
    exact (List.Perm.append_left _ ih).trans (List.flatMap_append_perm m _ _)

theorem flatMap_singleton_self (l : List Str) : l.flatMap (fun x => [x]) = l := by
  induction l with
  | nil => rfl
  | cons a l ih => simp [List.flatMap_cons, ih]

theorem priority_candidates_cons_cons (t : substitution_table) (c d : Nat) (rest : Str) :
    (priority_candidates t (c :: d :: rest)).Perm
      ((choices t.table_letters c).flatMap
          (fun x => (priority_candidates t (d :: rest)).map (x ++ ·)) ++
        (listed t.table_ligatures [c, d]).flatMap
          (fun r => (priority_candidates t rest).map (r ++ ·))) := by
  unfold priority_candidates
  simp only [segmentations, List.flatMap_append]
  apply List.Perm.append
  · simp only [List.flatMap_map, List.map_cons, product_of, Segment.letter_choices,
      List.map_flatMap]
    exact flatMap_comm_perm _ _ _
  · rw [flatMap_range_getD (listed t.table_ligatures [c, d])]
    simp only [List.flatMap_assoc, List.flatMap_map, List.map_cons, product_of,
      Segment.letter_choices, Segment.output, List.map_flatMap, List.flatMap_cons,
      List.flatMap_nil, List.append_nil]
    exact List.Perm.refl _

/-- The candidates listed reading by reading are, up to their order, the
candidates listed from the left. -/
theorem priority_candidates_perm (t : substitution_table) (w : Str) :
    (priority_candidates t w).Perm (candidates_rec t w) := by
  induction w using segmentations.induct t.table_ligatures with
  | case1 => exact List.Perm.refl _
  | case2 c =>
    have h : priority_candidates t [c] = choices t.table_letters c := by
      simp only [priority_candidates, segmentations, List.flatMap_cons, List.flatMap_nil,
        List.append_nil, List.map_cons, List.map_nil, product_of, Segment.letter_choices]
      exact flatMap_singleton_self _
    rw [h]
    exact List.Perm.refl _
  | case3 c d rest ih1 ih2 =>
    refine (priority_candidates_cons_cons t c d rest).trans ?_
    simp only [candidates_rec]
    apply List.Perm.append
    · exact List.Perm.flatMap_left _ (fun x _ => ih1.map _)
    · exact List.Perm.flatMap_left _ (fun r _ => ih2.map _)

/-- Every table of the catalog satisfies the conditions under which the
substitution paths tell apart. -/
theorem catalog_distinguishable : ∀ entry ∈ SUBSTITUTION_TABLES, distinguishable entry.2 := by
  decide

/-- Every key of the catalog is made of ASCII bytes. -/
theorem catalog_ascii_keys : ∀ entry ∈ SUBSTITUTION_TABLES, ascii_keys entry.2 := by
  decide

theorem listed_cases (m : StrMap) (key : Str) :
    listed m key = [] ∨ (key, listed m key) ∈ m := by
  unfold listed
  cases hf : m.find key with
  | none => left; rfl
  | some vs => right; exact find_some_mem m key vs hf

theorem listed_letters_mem (t : substitution_table) (key r : Str)
    (h : r ∈ listed t.table_letters key) : r ∈ replacements t := by
  rcases listed_cases t.table_letters key with h0 | hmem
  · rw [h0] at h; cases h
  · exact List.mem_append_left _ (List.mem_flatMap.mpr ⟨_, hmem, h⟩)

theorem listed_ligatures_mem (t : substitution_table) (key r : Str)
    (h : r ∈ listed t.table_ligatures key) : r ∈ replacements t := by
  rcases listed_cases t.table_ligatures key with h0 | hmem
  · rw [h0] at h; cases h
  · exact List.mem_append_right _ (List.mem_flatMap.mpr ⟨_, hmem, h⟩)

theorem replacement_first (t : substitution_table) (hd : distinguishable t) (r : Str)
    (hr : r ∈ replacements t) : ∃ b tl, r = b :: tl ∧ 0x80 ≤ b := by
  have h := hd.2.2.1 r hr
  cases r with
  | nil => simp at h
  | cons b tl => exact ⟨b, tl, rfl, h⟩

theorem replacement_length (t : substitution_table) (hd : distinguishable t) (r r2 : Str)
    (hr : r ∈ replacements t) (hr2 : r2 ∈ replacements t) : r.length = r2.length := by
  rw [hd.2.1 r hr, hd.2.1 r2 hr2]

theorem mem_choices (m : StrMap) (c : Nat) (x : Str) :
    x ∈ choices m c ↔ x = [c] ∨ x ∈ listed m [c] := by
  simp [choices, listed]

/-- Two outputs that agree and start with a kept ASCII byte or a replacement
start with the same piece. -/
theorem head_cancel (t : substitution_table) (hd : distinguishable t) (c : Nat)
    (hc : c < 0x80) (x x2 y y2 : Str) (hx : x = [c] ∨ x ∈ replacements t)
    (hx2 : x2 = [c] ∨ x2 ∈ replacements t) (h : x ++ y = x2 ++ y2) : x = x2 ∧ y = y2 := by
  rcases hx with rfl | hx <;> rcases hx2 with rfl | hx2
  · exact ⟨rfl, List.append_cancel_left h⟩
  · obtain ⟨b, tl, rfl, hb⟩ := replacement_first t hd x2 hx2
    simp only [List.singleton_append, List.cons_append, List.cons.injEq] at h
    omega
  · obtain ⟨b, tl, rfl, hb⟩ := replacement_first t hd x hx
    simp only [List.singleton_append, List.cons_append, List.cons.injEq] at h
    omega
  · exact List.append_inj h (replacement_length t hd x x2 hx hx2)

theorem choices_nodup (t : substitution_table) (hd : distinguishable t) (c : Nat)
    (hc : c < 0x80) : (choices t.table_letters c).Nodup := by
  have hl : (listed t.table_letters [c]).Nodup := by
    rcases listed_cases t.table_letters [c] with h0 | hmem
    · rw [h0]; exact List.nodup_nil
    · exact hd.2.2.2.1 _ hmem
  have hnot : [c] ∉ listed t.table_letters [c] := by
    intro hmem
    obtain ⟨b, tl, h, hb⟩ := replacement_first t hd _ (listed_letters_mem t _ _ hmem)
    simp only [List.cons.injEq] at h
    omega
  show ([c] :: (t.table_letters.find [c]).getD []).Nodup
  exact List.nodup_cons.mpr ⟨hnot, hl⟩

theorem listed_ligatures_nodup (t : substitution_table) (hd : distinguishable t) (key : Str) :
    (listed t.table_ligatures key).Nodup := by
  rcases listed_cases t.table_ligatures key with h0 | hmem
  · rw [h0]; exact List.nodup_nil
  · exact hd.2.2.2.2.1 _ hmem

/-- A byte without letter variant that starts no ligature key is kept by every
path. -/
theorem candidates_rec_inert (t : substitution_table) (d : Nat)
    (h1 : listed t.table_letters [d] = []) (h2 : ∀ e, listed t.table_ligatures [d, e] = [])
    (s : Str) : candidates_rec t (d :: s) = (candidates_rec t s).map (d :: ·) := by
  have hch : choices t.table_letters d = [[d]] := by
    have : choices t.table_letters d = [d] :: listed t.table_letters [d] := rfl
    rw [this, h1]
  cases s with
  | nil => simp [candidates_rec, hch]
  | cons e s => simp [candidates_rec, hch, h2 e, List.flatMap_cons]

theorem mem_candidates_rec_cons (t : substitution_table) (c : Nat) (s z : Str)
    (hz : z ∈ candidates_rec t (c :: s)) :
    (∃ x ∈ choices t.table_letters c, ∃ u ∈ candidates_rec t s, z = x ++ u) ∨
    (∃ e s2, s = e :: s2 ∧ ∃ r ∈ listed t.table_ligatures [c, e],
      ∃ v ∈ candidates_rec t s2, z = r ++ v) := by
  cases s with
  | nil =>
    left
    simp only [candidates_rec] at hz
    exact ⟨z, hz, [], by simp [candidates_rec], by simp⟩
  | cons e s2 =>
    simp only [candidates_rec, List.mem_append, List.mem_flatMap, List.mem_map] at hz
    rcases hz with ⟨x, hx, u, hu, rfl⟩ | ⟨r, hr, v, hv, rfl⟩
    · left; exact ⟨x, hx, u, hu, rfl⟩
    · right; exact ⟨e, s2, rfl, r, hr, v, hv, rfl⟩

/-- Putting an inert ASCII byte in front of a candidate of a word never gives
a candidate of the same word. -/
theorem candidates_rec_shift (t : substitution_table) (hd : distinguishable t) (d : Nat)
    (hd80 : d < 0x80) (h1 : listed t.table_letters [d] = [])
    (h2 : ∀ e, listed t.table_ligatures [d, e] = []) :
    ∀ (s : Str), ∀ y ∈ candidates_rec t s, d :: y ∉ candidates_rec t s := by
  intro s
  induction s with
  | nil =>
    intro y _ hdy
    simp [candidates_rec] at hdy
  | cons c s ih =>
    intro y hy hdy
    rcases mem_candidates_rec_cons t c s _ hdy with ⟨x, hx, u, hu, h⟩ | ⟨e, s2, _, r, hr, v, _, h⟩
    · rcases (mem_choices _ _ _).mp hx with rfl | hx
      · simp only [List.singleton_append, List.cons.injEq] at h
        obtain ⟨rfl, rfl⟩ := h
        rw [candidates_rec_inert t d h1 h2 s] at hy
        obtain ⟨y2, hy2, rfl⟩ := List.mem_map.mp hy
        exact ih y2 hy2 hu
      · obtain ⟨b, tl, rfl, hb⟩ := replacement_first t hd x (listed_letters_mem t _ _ hx)
        simp only [List.cons_append, List.cons.injEq] at h
        omega
    · obtain ⟨b, tl, rfl, hb⟩ := replacement_first t hd r (listed_ligatures_mem t _ _ hr)
      simp only [List.cons_append, List.cons.injEq] at h
      omega

theorem inert_of_overlap (t : substitution_table) (hd : distinguishable t) (c d : Nat)
    (r : Str) (hr : r ∈ listed t.table_ligatures [c, d]) (hv : r ∈ listed t.table_letters [c]) :
    listed t.table_letters [d] = [] ∧ ∀ e, listed t.table_ligatures [d, e] = [] := by
  rcases listed_cases t.table_ligatures [c, d] with h0 | hmem
  · rw [h0] at hr; cases hr
  · obtain ⟨hnone, hstart⟩ := hd.2.2.2.2.2.2 _ hmem r hr hv
    refine ⟨?_, fun e => ?_⟩
    · have hnone2 : t.table_letters.find [d] = none := hnone
      simp [listed, hnone2]
    · rcases listed_cases t.table_ligatures [d, e] with h0 | hmem2
      · exact h0
      · exact absurd rfl (hstart _ hmem2)

theorem letters_listed_of_high (t : substitution_table) (ha : ascii_keys t) (c : Nat)
    (hc : ¬ c < 0x80) : listed t.table_letters [c] = [] := by
  rcases listed_cases t.table_letters [c] with h0 | hmem
  · exact h0
  · exact absurd (ha.1 _ hmem c (List.mem_cons_self _ _)) hc

theorem ligatures_listed_of_high (t : substitution_table) (ha : ascii_keys t) (c e : Nat)
    (hc : ¬ c < 0x80) : listed t.table_ligatures [c, e] = [] := by
  rcases listed_cases t.table_ligatures [c, e] with h0 | hmem
  · exact h0
  · exact absurd (ha.2 _ hmem c (List.mem_cons_self _ _)) hc

theorem ligature_second_ascii (t : substitution_table) (ha : ascii_keys t) (c d : Nat)
    (r : Str) (hr : r ∈ listed t.table_ligatures [c, d]) : d < 0x80 := by
  rcases listed_cases t.table_ligatures [c, d] with h0 | hmem
  · rw [h0] at hr; cases hr
  · exact ha.2 _ hmem d (List.mem_cons_of_mem _ (List.mem_cons_self _ _))

/-- Under the conditions of `distinguishable` and with ASCII keys, the
candidates of a word listed from the left are pairwise different, whatever the
bytes of the word. -/
theorem candidates_rec_nodup (t : substitution_table) (hd : distinguishable t)
    (ha : ascii_keys t) : ∀ w : Str, (candidates_rec t w).Nodup := by
  intro w
  induction w using candidates_rec.induct t with
  | case1 => simp [candidates_rec]
  | case2 c =>
    simp only [candidates_rec]
    by_cases hc : c < 0x80
    · exact choices_nodup t hd c hc
    · have h : choices t.table_letters c = [c] :: listed t.table_letters [c] := rfl
      rw [h, letters_listed_of_high t ha c hc]
      exact List.nodup_singleton _
  | case3 c d rest ih1 ih2 =>
    by_cases hc : c < 0x80
    · have hpiece : ∀ x ∈ choices t.table_letters c, x = [c] ∨ x ∈ replacements t := by
        intro x hx
        rcases (mem_choices _ _ _).mp hx with h | h
        · exact Or.inl h
        · exact Or.inr (listed_letters_mem t _ _ h)
      simp only [candidates_rec]
      rw [List.nodup_append]
      refine ⟨?_, ?_, ?_⟩
      · rw [List.nodup_flatMap]
        refine ⟨fun x _ => ih1.map (List.append_right_injective x), ?_⟩
        apply (choices_nodup t hd c hc).pairwise_of_forall_ne
        intro x hx x2 hx2 hne z hz hz2
        obtain ⟨y, _, rfl⟩ := List.mem_map.mp hz
        obtain ⟨y2, _, h⟩ := List.mem_map.mp hz2
        exact hne (head_cancel t hd c hc x2 x y2 y (hpiece x2 hx2) (hpiece x hx) h).1.symm
      · rw [List.nodup_flatMap]
        refine ⟨fun r _ => ih2.map (List.append_right_injective r), ?_⟩
        apply (listed_ligatures_nodup t hd [c, d]).pairwise_of_forall_ne
        intro r hr r2 hr2 hne z hz hz2
        obtain ⟨y, _, rfl⟩ := List.mem_map.mp hz
        obtain ⟨y2, _, h⟩ := List.mem_map.mp hz2
        exact hne (head_cancel t hd c hc r2 r y2 y
          (Or.inr (listed_ligatures_mem t _ _ hr2)) (Or.inr (listed_ligatures_mem t _ _ hr))
          h).1.symm
      · intro z hz hz2
        obtain ⟨x, hx, hzx⟩ := List.mem_flatMap.mp hz
        obtain ⟨y, hy, rfl⟩ := List.mem_map.mp hzx
        obtain ⟨r, hr, hzr⟩ := List.mem_flatMap.mp hz2
        obtain ⟨v, hv, h⟩ := List.mem_map.mp hzr
        have hrR := listed_ligatures_mem t _ _ hr
        have hd80 : d < 0x80 := ligature_second_ascii t ha c d r hr
        obtain ⟨hxr, hyv⟩ := head_cancel t hd c hc r x v y (Or.inr hrR) (hpiece x hx) h
        subst hxr hyv
        rcases (mem_choices _ _ _).mp hx with hkept | hvariant
        · obtain ⟨b, tl, hb1, hb2⟩ := replacement_first t hd r hrR
          rw [hkept] at hb1
          simp only [List.cons.injEq] at hb1
          omega
        · obtain ⟨h1, h2⟩ := inert_of_overlap t hd c d r hr hvariant
          rw [candidates_rec_inert t d h1 h2 rest] at hy
          obtain ⟨y2, hy2, rfl⟩ := List.mem_map.mp hy
          exact candidates_rec_shift t hd d hd80 h1 h2 rest y2 hy2 hv
    · rw [candidates_rec_inert t c (letters_listed_of_high t ha c hc)
        (fun e => ligatures_listed_of_high t ha c e hc) (d :: rest)]
      exact ih1.map (List.cons_injective)

theorem substitute_eq_priority (t : substitution_table) (w : Str)
    (hkeys : ∀ kv ∈ t.table_ligatures, kv.1.length = 2)
    (hdisjoint : ∀ kv ∈ t.table_ligatures, ∀ s ∈ kv.2, ∀ b ∈ s, t.table_letters.find [b] = none) :
    substitute t w = .ok (priority_candidates t w) := by
  rw [substitute_eq_readings t w hkeys, priority_candidates]
  congr 1
  apply List.flatMap_congr
  intro segs _
  exact cartesian_product_reading t hdisjoint segs

/-- Under the conditions of `distinguishable` and with ASCII keys,
`substitute` returns no string twice, for any word. -/
theorem substitute_nodup (t : substitution_table) (hd : distinguishable t)
    (ha : ascii_keys t) (w : Str) :
    ∃ l, substitute t w = .ok l ∧ l.Nodup := by
  refine ⟨priority_candidates t w, substitute_eq_priority t w hd.1 hd.2.2.2.2.2.1, ?_⟩
  rw [(priority_candidates_perm t w).nodup_iff]
  exact candidates_rec_nodup t hd ha w

/-- C22: for every table of `SUBSTITUTION_TABLES` and every word, `substitute`
returns a list in which no string occurs twice; no property of the word is
needed, so this holds for every word that `is_substitutable` admits, in any
locale. -/
theorem catalog_no_duplicates (entry : Str × substitution_table)
    (hentry : entry ∈ SUBSTITUTION_TABLES) :
    (∀ w : Str, ∃ l, substitute entry.2 w = .ok l ∧ l.Nodup) ∧
    (∀ (locale : Locale) (w : Str), is_substitutable locale w = true →
      ∃ l, substitute entry.2 w = .ok l ∧ l.Nodup) :=
  ⟨fun w => substitute_nodup entry.2 (catalog_distinguishable entry hentry)
      (catalog_ascii_keys entry hentry) w,
    fun _ w _ => substitute_nodup entry.2 (catalog_distinguishable entry hentry)
      (catalog_ascii_keys entry hentry) w⟩

/-- Witness of C22: the German table and the word "ueue", whose digraphs can be
read as ligatures or letter by letter. -/
theorem catalog_no_duplicates_witness :
    ∃ l, substitute table_de [0x75, 0x65, 0x75, 0x65] = .ok l ∧ l.Nodup ∧ l.length = 9 := by
  obtain ⟨l, h1, h2⟩ := (catalog_no_duplicates ([0x64, 0x65], table_de)
    (by simp [SUBSTITUTION_TABLES])).2 c_locale [0x75, 0x65, 0x75, 0x65] (by decide)
  refine ⟨l, h1, h2, ?_⟩
  have h3 : substitute table_de [0x75, 0x65, 0x75, 0x65] =
      .ok (priority_candidates table_de [0x75, 0x65, 0x75, 0x65]) :=
    substitute_eq_priority _ _ (by decide) (by decide)
  rw [h1] at h3
  rw [Except.ok.inj h3]
  decide

end Sibel
